import Mathlib

/-!
Verification of the O-CNN-AS octree builder
(`src/ocnn/octree/src/octree/octree.cpp`, `octree_info.cpp`) against its
natural-language specification.  The C++ code is shallowly embedded:
per-layer arrays become Lean lists, `uint32` keys become `ℕ` (with explicit
`% 2 ^ 32` where the code truncates), `int` children entries become `ℤ`
(`-1` marking an empty node), and `float` error values become `ℚ` (only
their ordering is used by the code under study).
-/

set_option maxHeartbeats 1000000

namespace OCNN

/-! ## `Octree::unique_key` (octree.cpp, lines 736-750)

The C++ loop scans `keys` from position 1, compares each entry with its
predecessor, records the start position of every new run in `idx`, and
compacts the run heads in place (`keys[j++] = keys[i]`); finally
`keys.resize(j)` and `idx.push_back(n)`.  `uniqRuns i prev l` is that scan:
`i` is the position of `l`'s head in the original vector and `prev` the
entry just before it; it returns the collected run heads and the recorded
break positions.  For an empty input the code still produces `j = 1`, so
`keys.resize(1)` pads with a value-initialized key `0` and `idx = [0, 0]`. -/

def uniqRuns : ℕ → ℕ → List ℕ → List ℕ × List ℕ
  | _, _, [] => ([], [])
  | i, prev, k :: ks =>
    let r := uniqRuns (i + 1) k ks
    if k ≠ prev then (k :: r.1, i :: r.2) else r

/-- `std::vector::resize(j)`: truncate to `j` entries, padding with
value-initialized (`0`) entries when the vector is shorter than `j`. -/
def vresize (l : List ℕ) (j : ℕ) : List ℕ :=
  (l ++ List.replicate (j - l.length) 0).take j

def unique_key (keys : List ℕ) : List ℕ × List ℕ :=
  let n := keys.length
  let r := match keys with
           | [] => ([], [])
           | k0 :: ks => uniqRuns 1 k0 ks
  let j := 1 + r.2.length
  (vresize (keys.take 1 ++ r.1) j, (0 :: r.2) ++ [n])

/-! ## `Octree::sort_keys` (octree.cpp, lines 108-142)

Each point's Morton key and its index are packed into one 64-bit code
(`ptr[0] = i`, `ptr[1] = key`, little-endian: `code = key * 2^32 + i`),
the codes are sorted ascending with `std::sort`, and the sorted codes are
unpacked again.  The per-point key computation (`compute_key` over the
truncated scaled coordinates) happens before the pack; the embedding takes
the list of per-point keys as input, which covers every point cloud. -/

def sort_keys (keys : List ℕ) : List ℕ × List ℕ :=
  let npt := keys.length
  let code := (List.range npt).map (fun i => (keys.getD i 0 % 2 ^ 32) * 2 ^ 32 + i % 2 ^ 32)
  let sorted := List.insertionSort (· ≤ ·) code
  (sorted.map (· / 2 ^ 32), sorted.map (· % 2 ^ 32))

/-- Sum of the consecutive differences of a list (`Σ_t (l[t+1] - l[t])`). -/
def diffSum : List ℕ → ℕ
  | a :: b :: t => (b - a) + diffSum (b :: t)
  | _ => 0

/-! ## `OctreeInfo` (octree_info.cpp)

The header is a fixed-size record (spec §6).  Machine `int` fields become
`ℤ`, the `content_flags_` bitset becomes `ℕ`, the fixed-size arrays
`channels_[6]`, `locations_[6]`, `nnum_[16]`, `nnum_cum_[16]`,
`ptr_dis_[8]` become lists (their intended lengths appear as theorem
hypotheses), and float thresholds become `ℚ`. -/

structure OctreeInfoState where
  magic_str_ : String
  batch_size_ : ℤ
  depth_ : ℤ
  full_layer_ : ℤ
  adp_layer_ : ℤ
  is_adaptive_ : Bool
  key2xyz_ : Bool
  has_node_dis_ : Bool
  threshold_dist_ : ℚ
  threshold_norm_ : ℚ
  channels_ : List ℤ
  locations_ : List ℤ
  content_flags_ : ℕ
  nnum_ : List ℤ
  nnum_cum_ : List ℤ
  nnum_nempty_ : List ℤ
  ptr_dis_ : List ℤ
deriving Repr, DecidableEq

def kMagicStr : String := "_OCTREE_1.0_"

def kPTypeNum : ℕ := 6

/-- Modelled from the spec: the `PropType` bit codes live in the missing
header `octree_info.h`.  Spec §3 lists the property kinds
`{Key, Child, Feature, Label, Split, ...}` over six channel slots, and the
per-kind caps quoted in the validation section (§6: Key 2, Child 1,
Feature 8, Label 1, Split 1 against `channel_max = {2,1,8,1<<30,1,1}`)
place Feature at index 2, Label at index 4 and Split at index 5, leaving
index 3 for the unnamed sixth kind. -/
def kKey : ℕ := 1
def kChild : ℕ := 2
def kFeature : ℕ := 4
def kLabel : ℕ := 16
def kSplit : ℕ := 32

/-- `OctreeInfo::property_index` (octree_info.cpp, lines 225-233): index of
the lowest set bit of `ptype` among `[0, kPTypeNum)`, `0` when none. -/
def property_index (ptype : ℕ) : ℕ :=
  (((List.range kPTypeNum).filter (fun i => ptype &&& (1 <<< i) ≠ 0)).headD 0)

/-- `OctreeInfo::has_property` (missing header `octree_info.h`; modelled
from the spec and from the identical `PtsInfo::has_property` in
`include/octree/points.h`): the bit of `ptype` is set in
`content_flags_`. -/
def OctreeInfoState.has_property (s : OctreeInfoState) (ptype : ℕ) : Bool :=
  s.content_flags_ &&& ptype ≠ 0

/-- `OctreeInfo::channel` accessor (octree_info.cpp, lines 96-100). -/
def OctreeInfoState.channel (s : OctreeInfoState) (ptype : ℕ) : ℤ :=
  if ¬ s.has_property ptype then 0
  else s.channels_.getD (property_index ptype) 0

/-- `OctreeInfo::locations` accessor (octree_info.cpp, lines 102-106). -/
def OctreeInfoState.locations (s : OctreeInfoState) (ptype : ℕ) : ℤ :=
  if ¬ s.has_property ptype then 0
  else s.locations_.getD (property_index ptype) 0

/-- Modelled from the spec: the per-layer node-count accessor
`OctreeInfo::nnum(d)` lives in the missing header `octree_info.h`; it
reads `nnum_[d]` (spec §3/§6). -/
def OctreeInfoState.nnum (s : OctreeInfoState) (d : ℤ) : ℤ :=
  s.nnum_.getD d.toNat 0

/-- Modelled from the spec: `OctreeInfo::total_nnum_capacity` lives in the
missing header `octree_info.h`; per the capacity slot written by
`set_nnum_cum` (octree_info.cpp, lines 152-159) and spec §8 property 11 it
reads `nnum_cum_[depth_ + 2]`. -/
def OctreeInfoState.total_nnum_capacity (s : OctreeInfoState) : ℤ :=
  s.nnum_cum_.getD (s.depth_.toNat + 2) 0

/-- The error conditions reported by `OctreeInfo::check_format`; each
constructor stands for one message string appended to `msg`. -/
inductive FormatError where
  | badMagic
  | badBatchSize
  | badDepth
  | badFullLayer
  | badAdpLayer
  | badChannel (i : ℕ)
  | badContentFlags (i : ℕ)
  | badLocation (i : ℕ)
deriving Repr, DecidableEq

/-- `channel_max` from `OctreeInfo::check_format` (octree_info.cpp,
line 77): `{ 2, 1, 8, 1 << 30, 1, 1 }`. -/
def channel_max : List ℤ := [2, 1, 8, 1073741824, 1, 1]

/-- `OctreeInfo::check_format` (octree_info.cpp, lines 60-94), returning
the collected error messages and the `msg.empty()` result.  The channel
bound test keeps the source's `channels_[i] < 0 && channels_[i] >
channel_max[i]` conjunction. -/
def OctreeInfoState.check_format (s : OctreeInfoState) : List FormatError × Bool :=
  let msg : List FormatError :=
    (if s.magic_str_ ≠ kMagicStr then [FormatError.badMagic] else []) ++
    (if s.batch_size_ < 0 then [FormatError.badBatchSize] else []) ++
    (if s.depth_ < 1 ∨ s.depth_ > 8 then [FormatError.badDepth] else []) ++
    (if s.full_layer_ < 0 ∨ s.full_layer_ > s.depth_ then [FormatError.badFullLayer] else []) ++
    (if s.adp_layer_ < s.full_layer_ ∨ s.adp_layer_ > s.depth_ then [FormatError.badAdpLayer] else []) ++
    ((List.range kPTypeNum).flatMap (fun i =>
      (if s.channels_.getD i 0 < 0 ∧ s.channels_.getD i 0 > channel_max.getD i 0 then
        [FormatError.badChannel i] else []) ++
      (if decide (s.channels_.getD i 0 = 0) ≠ decide (s.content_flags_ &&& (1 <<< i) = 0) then
        [FormatError.badContentFlags i] else []) ++
      (if s.channels_.getD i 0 ≠ 0 ∧ s.locations_.getD i 0 ≠ -1 ∧ s.locations_.getD i 0 ≠ s.depth_ then
        [FormatError.badLocation i] else [])))
  (msg, msg.isEmpty)

/-- `OctreeInfo::set_batch_size` (octree_info.cpp, lines 132-134). -/
def OctreeInfoState.set_batch_size (s : OctreeInfoState) (b : ℤ) : OctreeInfoState :=
  { s with batch_size_ := if b < 1 then 1 else b }

/-- `OctreeInfo::set_depth` (octree_info.cpp, lines 136-138). -/
def OctreeInfoState.set_depth (s : OctreeInfoState) (d : ℤ) : OctreeInfoState :=
  { s with depth_ := if s.full_layer_ < d then d else s.full_layer_ }

/-- `OctreeInfo::set_full_layer` (octree_info.cpp, lines 140-142). -/
def OctreeInfoState.set_full_layer (s : OctreeInfoState) (fd : ℤ) : OctreeInfoState :=
  { s with full_layer_ := if fd < 1 then 1 else fd }

/-- Modelled from the spec: the one-line field setters below
(`set_adaptive_layer`, `set_adaptive`, `set_node_dis`, `set_key2xyz`,
`set_threshold_normal`, `set_threshold_dist`) live in the missing header
`octree_info.h`; each stores its argument in the header field of the same
name (spec §6 field list). -/
def OctreeInfoState.set_adaptive_layer (s : OctreeInfoState) (ad : ℤ) : OctreeInfoState :=
  { s with adp_layer_ := ad }

def OctreeInfoState.set_adaptive (s : OctreeInfoState) (a : Bool) : OctreeInfoState :=
  { s with is_adaptive_ := a }

def OctreeInfoState.set_node_dis (s : OctreeInfoState) (nd : Bool) : OctreeInfoState :=
  { s with has_node_dis_ := nd }

def OctreeInfoState.set_key2xyz (s : OctreeInfoState) (k : Bool) : OctreeInfoState :=
  { s with key2xyz_ := k }

def OctreeInfoState.set_threshold_normal (s : OctreeInfoState) (th : ℚ) : OctreeInfoState :=
  { s with threshold_norm_ := th }

def OctreeInfoState.set_threshold_dist (s : OctreeInfoState) (th : ℚ) : OctreeInfoState :=
  { s with threshold_dist_ := th }

/-- `OctreeInfo::set_channel` (octree_info.cpp, lines 168-180).  Clearing
`content_flags_ &= ~ptype` is written as subtracting the set bits of
`ptype` from the bitset. -/
def OctreeInfoState.set_channel (s : OctreeInfoState) (ptype : ℕ) (ch : ℤ) : OctreeInfoState :=
  let i := property_index ptype
  if ch > 0 then
    { s with channels_ := s.channels_.set i ch,
             content_flags_ := s.content_flags_ ||| ptype }
  else
    { s with channels_ := s.channels_.set i 0,
             content_flags_ := s.content_flags_ - (s.content_flags_ &&& ptype) }

/-- `OctreeInfo::set_location` (octree_info.cpp, lines 182-188). -/
def OctreeInfoState.set_location (s : OctreeInfoState) (ptype : ℕ) (lc : ℤ) : OctreeInfoState :=
  { s with locations_ := s.locations_.set (property_index ptype) lc }

/-- `OctreeInfo::set_nnum_cum` (octree_info.cpp, lines 152-159):
`nnum_cum_[0] = 0`, then the running sums
`nnum_cum_[d] = nnum_cum_[d-1] + nnum_[d-1]` for `d = 1..depth_+1`, and
the capacity slot `nnum_cum_[depth_+2] = max(capacity, nnum_cum_[depth_+1])`.
The call in `calc_node_num` uses the default capacity `0` (default argument
in the missing header `octree_info.h`; spec §8 property 11 takes the total
node count there). -/
def OctreeInfoState.set_nnum_cum (s : OctreeInfoState) (capacity : ℤ) : OctreeInfoState :=
  let base := s.nnum_cum_.set 0 0
  let cum := (List.range (s.depth_.toNat + 1)).foldl
      (fun c d => c.set (d + 1) (c.getD d 0 + s.nnum_.getD d 0)) base
  let t := cum.getD (s.depth_.toNat + 1) 0
  { s with nnum_cum_ := cum.set (s.depth_.toNat + 2) (if capacity > t then capacity else t) }

/-- The header size prefix `sizeof(OctreeInfo)`, from the fixed field
layout in spec §6: 16-byte magic, 7 `i32` scalars, `channels[6]`,
`locations[6]`, `nnum[16]`, `nnum_cum[16]`, `nnum_nempty[16]`,
`ptr_dis[8]`, `content_flags`, 2 `f32` thresholds, 6 `f32` bbox floats. -/
def sizeof_OctreeInfo : ℤ := 352

/-- `OctreeInfo::set_ptr_dis` (octree_info.cpp, lines 190-203):
`ptr_dis_[0] = sizeof(OctreeInfo)` and, for the `i`-th property kind,
`ptr_dis_[i+1] = ptr_dis_[i] + sizeof(int) * num * channels_[i]` where
`num` is the capacity total when the property lives on every layer and
`nnum(lc)` otherwise (the C++ loop runs `i = 1..kPTypeNum` over
`ptype = 1 << (i-1)`; here `i` is zero-based). -/
def OctreeInfoState.set_ptr_dis (s : OctreeInfoState) : OctreeInfoState :=
  let base := s.ptr_dis_.set 0 sizeof_OctreeInfo
  let pd := (List.range kPTypeNum).foldl (fun pd i =>
      let ptype := 1 <<< i
      let lc := s.locations ptype
      let num := if lc = -1 then s.total_nnum_capacity else s.nnum lc
      pd.set (i + 1) (pd.getD i 0 + 4 * num * s.channels_.getD i 0)) base
  { s with ptr_dis_ := pd }

/-- `OctreeInfo::initialize` (octree_info.cpp, lines 7-53).  The point
cloud argument enters only through its per-attribute channel counts,
passed here directly. -/
def OctreeInfoState.initializeInfo (s : OctreeInfoState) (depth full_depth : ℤ)
    (node_displacement node_feature split_label adaptive : Bool)
    (adaptive_depth : ℤ) (threshold_distance threshold_normal : ℚ)
    (key2xyz : Bool) (chNormal chFeature chFpfh chRoughness chLabel : ℤ) :
    OctreeInfoState :=
  let s := s.set_batch_size 1
  let s := s.set_depth depth
  let s := s.set_full_layer full_depth
  let s := s.set_adaptive_layer adaptive_depth
  let s := s.set_adaptive adaptive
  let s := s.set_node_dis node_displacement
  let s := s.set_key2xyz key2xyz
  let s := s.set_threshold_normal threshold_normal
  let s := s.set_threshold_dist threshold_distance
  let channel : ℤ := if key2xyz ∧ depth > 8 then 2 else 1
  let s := s.set_channel kKey channel
  let s := s.set_location kKey (-1)
  let s := s.set_channel kChild 1
  let s := s.set_location kChild (-1)
  let s := if split_label then (s.set_channel kSplit 1).set_location kSplit (-1) else s
  let channel := chNormal + chFeature + chFpfh + chRoughness
  let channel := if node_displacement then channel + 1 else channel
  let s := s.set_channel kFeature channel
  let location : ℤ := if node_feature ∨ adaptive then -1 else depth
  let s := s.set_location kFeature location
  let s := if chLabel = 1 then
      (s.set_channel kLabel 1).set_location kLabel
        (if node_feature ∨ adaptive then -1 else depth)
    else s
  s

/-- The per-layer Feature payload assembled by `Octree::serialize`
(octree.cpp, lines 759-767): start from a copy of `avg_normals_` and
append, per layer and in this order, `displacement_`, `avg_features_`,
`avg_fpfh_`, `avg_roughness_`. -/
def serializeFeatures (avg_normals displacement avg_features avg_fpfh avg_roughness :
    List (List ℚ)) (depth : ℕ) : List (List ℚ) :=
  (List.range (depth + 1)).map (fun d =>
    avg_normals.getD d [] ++ displacement.getD d [] ++ avg_features.getD d [] ++
      avg_fpfh.getD d [] ++ avg_roughness.getD d [])

/-- A header that is valid in every respect except `batch_size_ = 0`:
magic correct, `depth_ = 5`, `full_layer_ = 2`, `adp_layer_ = 4`, and the
Key/Child/Feature/Split properties present with consistent flags. -/
def batchZeroInfo : OctreeInfoState where
  magic_str_ := "_OCTREE_1.0_"
  batch_size_ := 0
  depth_ := 5
  full_layer_ := 2
  adp_layer_ := 4
  is_adaptive_ := true
  key2xyz_ := false
  has_node_dis_ := false
  threshold_dist_ := 1
  threshold_norm_ := 1
  channels_ := [1, 1, 3, 0, 0, 1]
  locations_ := [-1, -1, -1, 0, 0, -1]
  content_flags_ := 39
  nnum_ := []
  nnum_cum_ := []
  nnum_nempty_ := []
  ptr_dis_ := []

/-- As `batchZeroInfo` but with `batch_size_ = 1` and the Child channel
count `5`, above its documented cap of `1`. -/
def childOverCapInfo : OctreeInfoState :=
  { batchZeroInfo with batch_size_ := 1, channels_ := [1, 5, 3, 0, 0, 1] }

/-- As `batchZeroInfo` but with `batch_size_ = 1` and `full_layer_ = 0`
(accepted by `check_format`, which tests `full_layer_ < 0`). -/
def fullLayerZeroInfo : OctreeInfoState :=
  { batchZeroInfo with batch_size_ := 1, full_layer_ := 0, adp_layer_ := 0 }

/-- A concrete built header at depth 2: Key/Child/Feature stored on every
layer, Split stored at the finest layer only, node counts `1, 8, 8`. -/
def ptrDisInfo : OctreeInfoState :=
  { batchZeroInfo with
      batch_size_ := 1
      depth_ := 2
      full_layer_ := 1
      adp_layer_ := 2
      locations_ := [-1, -1, -1, 0, 0, 2]
      nnum_ := [1, 8, 8, 0, 0, 0, 0, 0, 0, 0, 0, 0, 0, 0, 0, 0]
      nnum_cum_ := [0, 0, 0, 0, 0, 0, 0, 0, 0, 0, 0, 0, 0, 0, 0, 0]
      nnum_nempty_ := [1, 1, 1, 0, 0, 0, 0, 0, 0, 0, 0, 0, 0, 0, 0, 0]
      ptr_dis_ := [0, 0, 0, 0, 0, 0, 0, 0] }

/-! ## `Octree::build_structure` (octree.cpp, lines 144-222)

The bottom-up build.  At each layer the parent keys are
`node_keys[i] >> 3` compacted by `unique_key`; every distinct parent
materializes a block of 8 children; the occupied slots receive the index
of the corresponding node of the current layer. -/

/-- Parent keys of one layer after `unique_key` compaction
(octree.cpp, lines 167-177). -/
def upKeys (nk : List ℕ) : List ℕ :=
  (unique_key (nk.map (· / 8))).1

/-- The run boundaries `parent_pidx` produced by the same `unique_key`
call. -/
def upPidx (nk : List ℕ) : List ℕ :=
  (unique_key (nk.map (· / 8))).2

/-- Base address of node `i`: `addr[i] = parent_rank << 3`, the rank being
the run of `parent_pidx` that contains `i` (octree.cpp, lines 192-198). -/
def addrOf (nk : List ℕ) (i : ℕ) : ℕ :=
  8 * ((upPidx nk).drop 1).countP (fun b => decide (b ≤ i))

/-- `keys[i] = (parent_keys[i >> 3] << 3) | (i % 8)` over the `8·np`
child slots (octree.cpp, lines 184-190). -/
def layerKeys (nk : List ℕ) : List ℕ :=
  (List.range (8 * (upKeys nk).length)).map (fun i => 8 * (upKeys nk).getD (i / 8) 0 + i % 8)

/-- `children[(node_keys[i] & 7) | addr[i]] = i` over an array initialized
to `-1` (octree.cpp, lines 184, 200-208); `addr[i]` is a multiple of 8, so
the bitwise or is an addition. -/
def layerChildren (nk : List ℕ) : List ℤ :=
  (List.range nk.length).foldl
    (fun ch i => ch.set (nk.getD i 0 % 8 + addrOf nk i) (i : ℤ))
    (List.replicate (8 * (upKeys nk).length) (-1))

/-- The bottom-up loop `for curr_depth = depth_; curr_depth > full_layer_;
--curr_depth` (octree.cpp, lines 166-212): returns the `(keys, children)`
pairs, deepest layer first, and the final `node_keys` (the occupied keys
of layer `full_layer`). -/
def buildLoop (full : ℕ) : ℕ → List ℕ → List (List ℕ × List ℤ) × List ℕ
  | 0, nk => ([], nk)
  | curr + 1, nk =>
    if curr + 1 ≤ full then ([], nk)
    else
      ((layerKeys nk, layerChildren nk) :: (buildLoop full curr (upKeys nk)).1,
        (buildLoop full curr (upKeys nk)).2)

/-- Full layer `d`: `keys[i] = i` over `n = 1 << 3d` slots
(octree.cpp, lines 150-163). -/
def fullLayerKeys (d : ℕ) : List ℕ := List.range (8 ^ d)

/-- Full layer children: `children[i] = i` except at `full_layer` itself,
where the guard `curr_depth != full_layer_` leaves the initialized `-1`
(octree.cpp, lines 156-161). -/
def fullLayerChildren (d full : ℕ) : List ℤ :=
  if d ≠ full then (List.range (8 ^ d)).map (fun i : ℕ => (i : ℤ))
  else List.replicate (8 ^ d) (-1)

/-- `Octree::build_structure`: the per-layer `keys_` and `children_`
arrays.  When `depth_ > full_layer_`, the children of layer `full_layer`
are patched by `children_[full_layer_][node_keys[i]] = i`
(octree.cpp, lines 214-221). -/
def build_structure (depth full : ℕ) (node_keys : List ℕ) :
    (ℕ → List ℕ) × (ℕ → List ℤ) :=
  let bl := buildLoop full depth node_keys
  let fixed : List ℤ :=
    if full < depth then
      (List.range bl.2.length).foldl
        (fun ch i => ch.set (bl.2.getD i 0) (i : ℤ))
        (fullLayerChildren full full)
    else fullLayerChildren full full
  (fun d =>
    if d ≤ full then fullLayerKeys d
    else if d ≤ depth then (bl.1.getD (depth - d) ([], [])).1
    else [],
   fun d =>
    if d < full then fullLayerChildren d full
    else if d = full then fixed
    else if d ≤ depth then (bl.1.getD (depth - d) ([], [])).2
    else [])

/-- Iterated parent-key compaction: the occupied keys `j` layers above the
starting one. -/
def iterUp (nk : List ℕ) : ℕ → List ℕ
  | 0 => nk
  | j + 1 => upKeys (iterUp nk j)

/-! ## `Octree::trim_octree` (octree.cpp, lines 845-978)

The trim pass keeps a per-node flag in `{kDrop, kDropChildren, kKeep}`,
initialized to `kKeep`.  `float` error values are embedded as `ℚ` (the
code only compares them).  A node is a leaf exactly when its `children_`
entry is `-1` (`node_type`, missing header `octree.h`; spec §3
invariant 5). -/

inductive TrimType where
  | kDrop
  | kDropChildren
  | kKeep
deriving Repr, DecidableEq

/-- The flag written for one child slot of an internal parent
(octree.cpp, lines 875-888): a `kKeep` parent marks the child
`kDropChildren` iff `(!has_dis || distance_err < th_dist) && normal_err <
th_norm` (leaving it unchanged otherwise); any other parent flag drops the
child. -/
def trimChildFlag (parentKeep : Bool) (nerr derr td tn : ℚ) (has_dis : Bool)
    (cur : TrimType) : TrimType :=
  if parentKeep then
    (if ((has_dis = false) ∨ (has_dis = true ∧ derr < td)) ∧ nerr < tn then
      TrimType.kDropChildren
    else cur)
  else TrimType.kDrop

/-- One inner iteration of the flag-generation loop (octree.cpp,
lines 875-894): at child slot `idx = t*8 + j` of parent `i`, write the
flag, then update `all_drop` from the just-written flag and
`children_d[idx]`. -/
def genChildStep (children_d : List ℤ) (drop_dp : List TrimType)
    (nerr_d derr_d : List ℚ) (td tn : ℚ) (has_dis : Bool) (i : ℕ) (t : ℤ)
    (st : List TrimType × Bool) (j : ℕ) : List TrimType × Bool :=
  let idx := 8 * t.toNat + j
  let fl := st.1.set idx
    (trimChildFlag (decide (drop_dp.getD i TrimType.kKeep = TrimType.kKeep))
      (nerr_d.getD idx 0) (derr_d.getD idx 0) td tn has_dis
      (st.1.getD idx TrimType.kKeep))
  (fl, if st.2 then
      !decide (fl.getD idx TrimType.kKeep = TrimType.kKeep ∧
        children_d.getD idx (-1) ≠ -1)
    else false)

/-- One outer iteration of the flag-generation loop: leaf parents are
skipped, internal parents process their 8 children
(octree.cpp, lines 868-895). -/
def genParentStep (children_dp children_d : List ℤ) (drop_dp : List TrimType)
    (nerr_d derr_d : List ℚ) (td tn : ℚ) (has_dis : Bool)
    (st : List TrimType × Bool) (i : ℕ) : List TrimType × Bool :=
  let t := children_dp.getD i (-1)
  if t = -1 then st
  else (List.range 8).foldl
    (genChildStep children_d drop_dp nerr_d derr_d td tn has_dis i t) st

/-- The flag-generation loop of one layer `d` together with its `all_drop`
accumulator (octree.cpp, lines 866-896). -/
def trimFlagsGen (children_dp children_d : List ℤ) (drop_dp : List TrimType)
    (nerr_d derr_d : List ℚ) (td tn : ℚ) (has_dis : Bool) : List TrimType × Bool :=
  (List.range children_dp.length).foldl
    (genParentStep children_dp children_d drop_dp nerr_d derr_d td tn has_dis)
    (List.replicate children_d.length TrimType.kKeep, true)

/-- One inner iteration of the rescue scan (octree.cpp, lines 906-913):
an internal child slot whose `normal_err` beats the current maximum
becomes the new `(max_idx, max_err)`. -/
def rescueChildStep (children_d : List ℤ) (nerr_d : List ℚ) (t : ℤ)
    (m : ℕ × ℚ) (j : ℕ) : ℕ × ℚ :=
  let idx := 8 * t.toNat + j
  if children_d.getD idx (-1) ≠ -1 ∧ nerr_d.getD idx 0 > m.2 then
    (idx, nerr_d.getD idx 0)
  else m

/-- One outer iteration of the rescue scan: leaf parents and parents whose
flag is no longer `kKeep` are skipped (octree.cpp, lines 902-904). -/
def rescueParentStep (children_dp children_d : List ℤ) (drop_dp : List TrimType)
    (nerr_d : List ℚ) (m : ℕ × ℚ) (i : ℕ) : ℕ × ℚ :=
  let t := children_dp.getD i (-1)
  if t = -1 ∨ drop_dp.getD i TrimType.kKeep ≠ TrimType.kKeep then m
  else (List.range 8).foldl (rescueChildStep children_d nerr_d t) m

/-- The rescue scan (octree.cpp, lines 899-914): over the internal
children (at layer `d`) of still-`kKeep` internal parents, find the slot
with the largest `normal_err`, starting from `(max_idx, max_err) =
(0, -1)`. -/
def trimRescue (children_dp children_d : List ℤ) (drop_dp : List TrimType)
    (nerr_d : List ℚ) : ℕ × ℚ :=
  (List.range children_dp.length).foldl
    (rescueParentStep children_dp children_d drop_dp nerr_d)
    (0, -1)

/-- Flags of one layer: the generation loop, then — when every slot would
be dropped — `drop_d[max_idx] = kKeep` (octree.cpp, lines 898-916). -/
def trimFlagsLayer (children_dp children_d : List ℤ) (drop_dp : List TrimType)
    (nerr_d derr_d : List ℚ) (td tn : ℚ) (has_dis : Bool) : List TrimType :=
  let g := trimFlagsGen children_dp children_d drop_dp nerr_d derr_d td tn has_dis
  if g.2 then g.1.set (trimRescue children_dp children_d drop_dp nerr_d).1 TrimType.kKeep
  else g.1

/-- Per-layer flags of the whole top-down pass `for d = depth_adp ..
depth` (octree.cpp, lines 855-917): layers below `depth_adp` keep their
initialized `kKeep` flags; each later layer is generated from its parent
layer's flags. -/
def trimFlags (children : ℕ → List ℤ) (nerr derr : ℕ → List ℚ)
    (td tn : ℚ) (has_dis : Bool) (depth_adp : ℕ) : ℕ → List TrimType
  | 0 => List.replicate (children 0).length TrimType.kKeep
  | d + 1 =>
    if d + 1 < depth_adp then List.replicate (children (d + 1)).length TrimType.kKeep
    else
      trimFlagsLayer (children d) (children (d + 1))
        (trimFlags children nerr derr td tn has_dis depth_adp d)
        (nerr (d + 1)) (derr (d + 1)) td tn has_dis

/-- The trimmed key array of one layer: entries whose flag is not `kDrop`
(octree.cpp, lines 924-929). -/
def trimKeys (keys_d : List ℕ) (drop_d : List TrimType) : List ℕ :=
  ((List.range keys_d.length).filter
    (fun i => drop_d.getD i TrimType.kKeep ≠ TrimType.kDrop)).map
    (fun i => keys_d.getD i 0)

/-- The trimmed children array of one layer: dropped entries disappear,
kept internal `kKeep` nodes get fresh contiguous ids `id++`, all others
become `-1` (octree.cpp, lines 931-937). -/
def trimChildren (children_d : List ℤ) (drop_d : List TrimType) : List ℤ :=
  ((List.range children_d.length).foldl
    (fun (acc : List ℤ × ℕ) i =>
      if drop_d.getD i TrimType.kKeep = TrimType.kDrop then acc
      else if drop_d.getD i TrimType.kKeep = TrimType.kKeep ∧
          children_d.getD i (-1) ≠ -1 then
        (acc.1 ++ [(acc.2 : ℤ)], acc.2 + 1)
      else (acc.1 ++ [(-1 : ℤ)], acc.2))
    ((([] : List ℤ), (0 : ℕ)) : List ℤ × ℕ)).1

/-- The children arrays after `trim_octree` rewrote layers
`depth_adp .. depth` (octree.cpp, lines 920-937). -/
def trim_octree_children (children : ℕ → List ℤ) (nerr derr : ℕ → List ℚ)
    (td tn : ℚ) (has_dis : Bool) (depth_adp depth : ℕ) (d : ℕ) : List ℤ :=
  if depth_adp ≤ d ∧ d ≤ depth then
    trimChildren (children d) (trimFlags children nerr derr td tn has_dis depth_adp d)
  else children d

/-- `nnum_nempty` of one layer as computed by `calc_node_num`
(octree.cpp, lines 232-242): one past the last child pointer, scanning
from the back for the last non-`-1` entry. -/
def calcNempty (children_d : List ℤ) : ℤ :=
  match children_d.reverse.find? (fun c => decide (c ≠ -1)) with
  | some c => c + 1
  | none => 0

/-! ### Lemmas about `uniqRuns` and `unique_key` -/

theorem uniqRuns_bs_mem : ∀ (i prev : ℕ) (l : List ℕ),
    ∀ b ∈ (uniqRuns i prev l).2, i ≤ b ∧ b < i + l.length := by
  intro i prev l
  induction l generalizing i prev with
  | nil => intro b hb; simp [uniqRuns] at hb
  | cons k ks ih =>
    intro b hb
    simp only [uniqRuns] at hb
    by_cases hk : k ≠ prev
    · simp only [if_pos hk] at hb
      rcases List.mem_cons.mp hb with h | h
      · subst h; simp
      · have := ih (i + 1) k b h
        constructor <;> [omega; (simp only [List.length_cons]; omega)]
    · simp only [if_neg hk] at hb
      have := ih (i + 1) k b hb
      constructor <;> [omega; (simp only [List.length_cons]; omega)]

theorem uniqRuns_bs_pairwise : ∀ (i prev : ℕ) (l : List ℕ),
    (uniqRuns i prev l).2.Pairwise (· < ·) := by
  intro i prev l
  induction l generalizing i prev with
  | nil => simp [uniqRuns]
  | cons k ks ih =>
    simp only [uniqRuns]
    by_cases hk : k ≠ prev
    · simp only [if_pos hk]
      refine List.pairwise_cons.mpr ⟨?_, ih (i + 1) k⟩
      intro b hb
      have := uniqRuns_bs_mem (i + 1) k ks b hb
      omega
    · simp only [if_neg hk]; exact ih (i + 1) k

theorem uniqRuns_len : ∀ (i prev : ℕ) (l : List ℕ),
    (uniqRuns i prev l).1.length = (uniqRuns i prev l).2.length := by
  intro i prev l
  induction l generalizing i prev with
  | nil => simp [uniqRuns]
  | cons k ks ih =>
    simp only [uniqRuns]
    by_cases hk : k ≠ prev
    · simp only [if_pos hk, List.length_cons, ih (i + 1) k]
    · simp only [if_neg hk]; exact ih (i + 1) k

theorem uniqRuns_us_sub : ∀ (i prev : ℕ) (l : List ℕ),
    ∀ u ∈ (uniqRuns i prev l).1, u ∈ l := by
  intro i prev l
  induction l generalizing i prev with
  | nil => intro u hu; simp [uniqRuns] at hu
  | cons k ks ih =>
    intro u hu
    simp only [uniqRuns] at hu
    by_cases hk : k ≠ prev
    · simp only [if_pos hk] at hu
      rcases List.mem_cons.mp hu with h | h
      · subst h; simp
      · exact List.mem_cons_of_mem _ (ih (i + 1) k u h)
    · simp only [if_neg hk] at hu
      exact List.mem_cons_of_mem _ (ih (i + 1) k u hu)

/-- Run heads of a nondecreasing list are strictly increasing (prefixed by
the value before the scan window). -/
theorem uniqRuns_us_chain : ∀ (i prev : ℕ) (l : List ℕ),
    List.Chain' (· ≤ ·) (prev :: l) →
    List.Chain' (· < ·) (prev :: (uniqRuns i prev l).1) := by
  intro i prev l
  induction l generalizing i prev with
  | nil => intro _; simp [uniqRuns]
  | cons k ks ih =>
    intro hmono
    have h1 : prev ≤ k := (List.chain'_cons.mp hmono).1
    have h2 : List.Chain' (· ≤ ·) (k :: ks) := (List.chain'_cons.mp hmono).2
    simp only [uniqRuns]
    by_cases hk : k ≠ prev
    · simp only [if_pos hk]
      exact List.chain'_cons.mpr ⟨lt_of_le_of_ne h1 (Ne.symm hk), ih (i + 1) k h2⟩
    · simp only [if_neg hk]
      push_neg at hk
      subst hk
      exact ih (i + 1) k h2

/-- Run-value correspondence: the entry at position `j` of the scan window
equals the run head indexed by the number of recorded breaks at or before
that position. -/
theorem uniqRuns_run_val : ∀ (i prev : ℕ) (l : List ℕ),
    List.Chain' (· ≤ ·) (prev :: l) →
    ∀ j < l.length,
      (prev :: (uniqRuns i prev l).1).getD
          ((uniqRuns i prev l).2.countP (fun b => decide (b ≤ i + j))) 0 =
        l.getD j 0 := by
  intro i prev l
  induction l generalizing i prev with
  | nil => intro _ j hj; simp at hj
  | cons k ks ih =>
    intro hmono j hj
    have h2 : List.Chain' (· ≤ ·) (k :: ks) := (List.chain'_cons.mp hmono).2
    simp only [uniqRuns]
    by_cases hk : k ≠ prev
    · simp only [if_pos hk]
      cases j with
      | zero =>
        have hbs : ∀ b ∈ (uniqRuns (i + 1) k ks).2, ¬ b ≤ i + 0 := by
          intro b hb
          have := uniqRuns_bs_mem (i + 1) k ks b hb
          omega
        rw [List.countP_cons_of_pos _ _ (by simp), List.countP_eq_zero.mpr (by
          intro b hb; simpa using hbs b hb)]
        simp
      | succ j =>
        have hjj : j < ks.length := by simpa using hj
        rw [List.countP_cons_of_pos _ _ (by simp)]
        have := ih (i + 1) k h2 j hjj
        have harg : i + (j + 1) = (i + 1) + j := by omega
        rw [harg]
        simpa using this
    · simp only [if_neg hk]
      push_neg at hk
      subst hk
      cases j with
      | zero =>
        have hbs : ∀ b ∈ (uniqRuns (i + 1) k ks).2, ¬ b ≤ i + 0 := by
          intro b hb
          have := uniqRuns_bs_mem (i + 1) k ks b hb
          omega
        rw [List.countP_eq_zero.mpr (by intro b hb; simpa using hbs b hb)]
        simp
      | succ j =>
        have hjj : j < ks.length := by simpa using hj
        have := ih (i + 1) k h2 j hjj
        have harg : i + (j + 1) = (i + 1) + j := by omega
        rw [harg]
        simpa using this

theorem vresize_self (l : List ℕ) : vresize l l.length = l := by
  simp [vresize]

/-- On a nonempty input, `unique_key` returns the run heads and the break
positions `0 :: bs ++ [n]` (no resize padding happens). -/
theorem unique_key_cons (k0 : ℕ) (ks : List ℕ) :
    unique_key (k0 :: ks) =
      (k0 :: (uniqRuns 1 k0 ks).1,
        (0 :: (uniqRuns 1 k0 ks).2) ++ [(k0 :: ks).length]) := by
  have hlen : (k0 :: (uniqRuns 1 k0 ks).1).length = 1 + (uniqRuns 1 k0 ks).2.length := by
    simp only [List.length_cons, uniqRuns_len 1 k0 ks]
    omega
  simp only [unique_key]
  rw [show List.take 1 (k0 :: ks) = [k0] from rfl]
  rw [show ([k0] ++ (uniqRuns 1 k0 ks).1) = k0 :: (uniqRuns 1 k0 ks).1 from rfl]
  rw [← hlen, vresize_self]

/-- Telescoping: for a nondecreasing list, the consecutive differences sum
to last-minus-first. -/
theorem diffSum_telescope : ∀ (l : List ℕ) (a : ℕ),
    List.Chain' (· ≤ ·) (a :: l) → diffSum (a :: l) + a = l.getLastD a := by
  intro l
  induction l with
  | nil => intro a _; simp [diffSum]
  | cons b t ih =>
    intro a h
    have h1 : a ≤ b := (List.chain'_cons.mp h).1
    have h2 : List.Chain' (· ≤ ·) (b :: t) := (List.chain'_cons.mp h).2
    have := ih b h2
    simp only [diffSum, List.getLastD_cons]
    omega

/-- Claim C6: for every non-empty list of per-point keys, the keys unpacked
from the sorted codes are non-decreasing, and `unique_key` applied to them
records run boundaries that are strictly increasing, start at `0`, end at
`N`, and whose consecutive differences sum to `N`. -/
theorem C6_sort_unique_monotone (keys : List ℕ) (h : keys ≠ []) :
    List.Sorted (· ≤ ·) (sort_keys keys).1 ∧
    List.Chain' (· < ·) (unique_key (sort_keys keys).1).2 ∧
    (unique_key (sort_keys keys).1).2.head? = some 0 ∧
    (unique_key (sort_keys keys).1).2.getLast? = some keys.length ∧
    diffSum (unique_key (sort_keys keys).1).2 = keys.length := by
  have hsorted : List.Sorted (· ≤ ·) (sort_keys keys).1 := by
    simp only [sort_keys]
    exact List.Pairwise.map _ (fun a b hab => Nat.div_le_div_right hab)
      (List.sorted_insertionSort (· ≤ ·) _)
  have hlen : (sort_keys keys).1.length = keys.length := by
    simp [sort_keys, List.length_insertionSort]
  have hne : (sort_keys keys).1 ≠ [] := by
    intro hnil
    apply h
    have := hlen
    rw [hnil] at this
    exact List.length_eq_zero.mp this.symm
  obtain ⟨k0, ks, hk⟩ := List.exists_cons_of_ne_nil hne
  set bs := (uniqRuns 1 k0 ks).2 with hbs
  have hN : keys.length = 1 + ks.length := by
    rw [← hlen, hk]; simp; omega
  have hun : (unique_key (sort_keys keys).1).2 = (0 :: bs) ++ [keys.length] := by
    rw [hk, unique_key_cons]
    simp only [← hbs, List.length_cons]
    rw [show ks.length + 1 = keys.length by omega]
  have hbmem : ∀ b ∈ bs, 1 ≤ b ∧ b < keys.length := by
    intro b hb
    have := uniqRuns_bs_mem 1 k0 ks b hb
    omega
  have hpw : ((0 :: bs) ++ [keys.length]).Pairwise (· < ·) := by
    rw [List.cons_append, List.pairwise_cons]
    constructor
    · intro b hb
      rcases List.mem_append.mp hb with hb | hb
      · exact lt_of_lt_of_le Nat.one_pos (hbmem b hb).1
      · have : b = keys.length := by simpa using hb
        subst this
        rw [← hlen, hk]
        simp
    · rw [List.pairwise_append]
      refine ⟨uniqRuns_bs_pairwise 1 k0 ks, by simp, ?_⟩
      intro b hb b' hb'
      have : b' = keys.length := by simpa using hb'
      subst this
      exact (hbmem b hb).2
  have hchain : List.Chain' (· < ·) ((0 :: bs) ++ [keys.length]) :=
    List.chain'_iff_pairwise.mpr hpw
  refine ⟨hsorted, by rw [hun]; exact hchain, by rw [hun]; simp, ?_, ?_⟩
  · rw [hun]
    exact List.getLast?_concat _
  · rw [hun]
    have hch : List.Chain' (· ≤ ·) (0 :: (bs ++ [keys.length])) := by
      have := hchain
      rw [List.cons_append] at this
      exact this.imp (fun a b hab => le_of_lt hab)
    have := diffSum_telescope (bs ++ [keys.length]) 0 hch
    rw [List.cons_append]
    rw [show (bs ++ [keys.length]).getLastD 0 = keys.length by
      rw [List.getLastD_eq_getLast?, List.getLast?_concat]; rfl] at this
    omega

/-- Closed witness for Claim C6 at the concrete key list `[3, 1, 1]`. -/
theorem C6_sort_unique_monotone_witness :
    ([3, 1, 1] : List ℕ) ≠ [] ∧
    (List.Sorted (· ≤ ·) (sort_keys [3, 1, 1]).1 ∧
     List.Chain' (· < ·) (unique_key (sort_keys [3, 1, 1]).1).2 ∧
     (unique_key (sort_keys [3, 1, 1]).1).2.head? = some 0 ∧
     (unique_key (sort_keys [3, 1, 1]).1).2.getLast? = some ([3, 1, 1] : List ℕ).length ∧
     diffSum (unique_key (sort_keys [3, 1, 1]).1).2 = ([3, 1, 1] : List ℕ).length) :=
  ⟨by decide, C6_sort_unique_monotone [3, 1, 1] (by decide)⟩

/-! ### Helper lemmas about list writes -/

theorem getD_set_self {α : Type} (l : List α) (i : ℕ) (v d : α) (h : i < l.length) :
    (l.set i v).getD i d = v := by
  rw [List.getD_eq_getElem?_getD, List.getElem?_set_self (by simpa using h)]
  rfl

theorem getD_set_ne {α : Type} (l : List α) (i j : ℕ) (v d : α) (h : i ≠ j) :
    (l.set i v).getD j d = l.getD j d := by
  rw [List.getD_eq_getElem?_getD, List.getElem?_set_ne h]
  rw [List.getD_eq_getElem?_getD]

/-! ### Theorems about `OctreeInfo` -/

/-- Claim C4 (divergence evidence): `check_format` accepts a header whose
`batch_size_` is `0` (the code tests `batch_size_ < 0`, contradicting its
own message that the batch size "should be larger than 0"), and accepts a
Child channel count of `5`, above its cap of `1` (the cap test
`channels_[i] < 0 && channels_[i] > channel_max[i]` is unsatisfiable),
while the claim requires a non-empty message list in both cases. -/
theorem C4_check_format_accepts_invalid :
    batchZeroInfo.check_format = ([], true) ∧ batchZeroInfo.batch_size_ < 1 ∧
    childOverCapInfo.check_format = ([], true) ∧
    childOverCapInfo.channels_.getD (property_index kChild) 0 >
      channel_max.getD (property_index kChild) 0 := by
  refine ⟨by decide, by decide, by decide, by decide⟩

theorem set_channel_keeps (s : OctreeInfoState) (p : ℕ) (c : ℤ) :
    (s.set_channel p c).batch_size_ = s.batch_size_ ∧
    (s.set_channel p c).full_layer_ = s.full_layer_ := by
  unfold OctreeInfoState.set_channel
  split <;> exact ⟨rfl, rfl⟩

theorem set_location_keeps (s : OctreeInfoState) (p : ℕ) (lc : ℤ) :
    (s.set_location p lc).batch_size_ = s.batch_size_ ∧
    (s.set_location p lc).full_layer_ = s.full_layer_ :=
  ⟨rfl, rfl⟩

theorem set_misc_keeps (s : OctreeInfoState) (ad : ℤ) (a nd k : Bool) (tn td : ℚ) :
    ((s.set_adaptive_layer ad).batch_size_ = s.batch_size_ ∧
     (s.set_adaptive_layer ad).full_layer_ = s.full_layer_) ∧
    ((s.set_adaptive a).batch_size_ = s.batch_size_ ∧
     (s.set_adaptive a).full_layer_ = s.full_layer_) ∧
    ((s.set_node_dis nd).batch_size_ = s.batch_size_ ∧
     (s.set_node_dis nd).full_layer_ = s.full_layer_) ∧
    ((s.set_key2xyz k).batch_size_ = s.batch_size_ ∧
     (s.set_key2xyz k).full_layer_ = s.full_layer_) ∧
    ((s.set_threshold_normal tn).batch_size_ = s.batch_size_ ∧
     (s.set_threshold_normal tn).full_layer_ = s.full_layer_) ∧
    ((s.set_threshold_dist td).batch_size_ = s.batch_size_ ∧
     (s.set_threshold_dist td).full_layer_ = s.full_layer_) :=
  ⟨⟨rfl, rfl⟩, ⟨rfl, rfl⟩, ⟨rfl, rfl⟩, ⟨rfl, rfl⟩, ⟨rfl, rfl⟩, ⟨rfl, rfl⟩⟩

theorem set_depth_keeps (s : OctreeInfoState) (d : ℤ) :
    (s.set_depth d).batch_size_ = s.batch_size_ ∧
    (s.set_depth d).full_layer_ = s.full_layer_ :=
  ⟨rfl, rfl⟩

theorem set_full_layer_keeps_batch (s : OctreeInfoState) (fd : ℤ) :
    (s.set_full_layer fd).batch_size_ = s.batch_size_ :=
  rfl

/-- Claim C9: `set_batch_size` clamps below-1 arguments to 1,
`set_full_layer` clamps a below-1 full-depth argument to 1 (a requested
full layer of `0`, which `check_format` accepts, is silently coerced to
1), `set_depth` clamps a depth below the current `full_layer_` up to it,
and consequently every `initialize` result has `batch_size_ ≥ 1` and
`full_layer_ ≥ 1`. -/
theorem C9_initialize_clamps :
    (∀ (s : OctreeInfoState) (b : ℤ), (s.set_batch_size b).batch_size_ = max b 1) ∧
    (∀ (s : OctreeInfoState) (fd : ℤ), (s.set_full_layer fd).full_layer_ = max fd 1) ∧
    (∀ (s : OctreeInfoState) (d : ℤ), (s.set_depth d).depth_ = max d s.full_layer_) ∧
    fullLayerZeroInfo.check_format.2 = true ∧ fullLayerZeroInfo.full_layer_ = 0 ∧
    (∀ (s : OctreeInfoState) (depth full_depth : ℤ)
       (node_displacement node_feature split_label adaptive : Bool)
       (adaptive_depth : ℤ) (td tn : ℚ) (key2xyz : Bool) (c1 c2 c3 c4 c5 : ℤ),
      1 ≤ (s.initializeInfo depth full_depth node_displacement node_feature split_label
            adaptive adaptive_depth td tn key2xyz c1 c2 c3 c4 c5).batch_size_ ∧
      1 ≤ (s.initializeInfo depth full_depth node_displacement node_feature split_label
            adaptive adaptive_depth td tn key2xyz c1 c2 c3 c4 c5).full_layer_) := by
  refine ⟨?_, ?_, ?_, by decide, by decide, ?_⟩
  · intro s b
    show (if b < 1 then 1 else b) = max b 1
    split <;> omega
  · intro s fd
    show (if fd < 1 then 1 else fd) = max fd 1
    split <;> omega
  · intro s d
    show (if s.full_layer_ < d then d else s.full_layer_) = max d s.full_layer_
    split <;> omega
  · intro s depth full_depth node_displacement node_feature split_label adaptive
      adaptive_depth td tn key2xyz c1 c2 c3 c4 c5
    constructor <;>
      simp only [OctreeInfoState.initializeInfo, set_channel_keeps, set_location_keeps,
        set_misc_keeps, set_depth_keeps, set_full_layer_keeps_batch,
        apply_ite OctreeInfoState.batch_size_, apply_ite OctreeInfoState.full_layer_,
        ite_self]
    · show 1 ≤ (if (1 : ℤ) < 1 then 1 else 1)
      norm_num
    · show 1 ≤ (if full_depth < 1 then 1 else full_depth)
      split <;> omega

theorem setters_keep_channels (s : OctreeInfoState) (p : ℕ) (lc ad b d : ℤ)
    (a k nd : Bool) (t : ℚ) :
    (s.set_location p lc).channels_ = s.channels_ ∧
    (s.set_batch_size b).channels_ = s.channels_ ∧
    (s.set_depth d).channels_ = s.channels_ ∧
    (s.set_full_layer b).channels_ = s.channels_ ∧
    (s.set_adaptive_layer ad).channels_ = s.channels_ ∧
    (s.set_adaptive a).channels_ = s.channels_ ∧
    (s.set_node_dis nd).channels_ = s.channels_ ∧
    (s.set_key2xyz k).channels_ = s.channels_ ∧
    (s.set_threshold_normal t).channels_ = s.channels_ ∧
    (s.set_threshold_dist t).channels_ = s.channels_ :=
  ⟨rfl, rfl, rfl, rfl, rfl, rfl, rfl, rfl, rfl, rfl⟩

theorem set_channel_channels (s : OctreeInfoState) (p : ℕ) (c : ℤ) :
    (s.set_channel p c).channels_ =
      s.channels_.set (property_index p) (if c > 0 then c else 0) := by
  unfold OctreeInfoState.set_channel
  by_cases h : c > 0
  · rw [if_pos h, if_pos h]
  · rw [if_neg h, if_neg h]

/-- Claim C8: the Feature payload of each layer assembled by `serialize`
is `normals ∥ displacement ∥ features ∥ fpfh ∥ roughness`, and the Feature
channel count written by `OctreeInfo::initialize` is the sum of the
normal, feature, fpfh and roughness channel counts of the points, plus 1
when displacement is enabled. -/
theorem C8_feature_payload (n dp f fp r : List (List ℚ)) (depth : ℕ)
    (s : OctreeInfoState) (dpth full_depth : ℤ)
    (node_displacement node_feature split_label adaptive : Bool)
    (adaptive_depth : ℤ) (td tn : ℚ) (key2xyz : Bool) (cN cF cP cR cL : ℤ)
    (hlen : s.channels_.length = 6)
    (hN : 0 ≤ cN) (hF : 0 ≤ cF) (hP : 0 ≤ cP) (hR : 0 ≤ cR) :
    (∀ d ≤ depth, (serializeFeatures n dp f fp r depth).getD d [] =
      n.getD d [] ++ dp.getD d [] ++ f.getD d [] ++ fp.getD d [] ++ r.getD d []) ∧
    (s.initializeInfo dpth full_depth node_displacement node_feature split_label adaptive
        adaptive_depth td tn key2xyz cN cF cP cR cL).channels_.getD
        (property_index kFeature) 0 =
      cN + cF + cP + cR + (if node_displacement then 1 else 0) := by
  constructor
  · intro d hd
    simp only [serializeFeatures]
    rw [List.getD_eq_getElem?_getD, List.getElem?_map, List.getElem?_range (by omega)]
    rfl
  · have hpK : property_index kKey = 0 := rfl
    have hpC : property_index kChild = 1 := rfl
    have hpF : property_index kFeature = 2 := rfl
    have hpL : property_index kLabel = 4 := rfl
    have hpS : property_index kSplit = 5 := rfl
    simp only [OctreeInfoState.initializeInfo, OctreeInfoState.set_batch_size,
      OctreeInfoState.set_depth, OctreeInfoState.set_full_layer,
      OctreeInfoState.set_adaptive_layer, OctreeInfoState.set_adaptive,
      OctreeInfoState.set_node_dis, OctreeInfoState.set_key2xyz,
      OctreeInfoState.set_threshold_normal, OctreeInfoState.set_threshold_dist,
      OctreeInfoState.set_channel, OctreeInfoState.set_location,
      hpK, hpC, hpF, hpL, hpS, apply_ite OctreeInfoState.channels_]
    norm_num
    split_ifs <;>
      simp [List.getElem?_set_ne, List.getElem?_set_self, List.length_set, hlen] <;>
      omega

/-- Closed witness for Claim C8: two layers of concrete signals and an
`initialize` call with 3 normal, 2 feature, 33 fpfh and 1 roughness
channels plus displacement. -/
theorem C8_feature_payload_witness :
    batchZeroInfo.channels_.length = 6 ∧
    ((∀ d ≤ (1 : ℕ),
        (serializeFeatures [[1], [2]] [[3], [4]] [[5]] [] [[6], [7]] 1).getD d [] =
          ([[1], [2]] : List (List ℚ)).getD d [] ++ ([[3], [4]] : List (List ℚ)).getD d [] ++
            ([[5]] : List (List ℚ)).getD d [] ++ ([] : List (List ℚ)).getD d [] ++
            ([[6], [7]] : List (List ℚ)).getD d []) ∧
      (batchZeroInfo.initializeInfo 4 2 true false true false 3 1 1 false
          3 2 33 1 1).channels_.getD (property_index kFeature) 0 =
        3 + 2 + 33 + 1 + (if true then 1 else 0)) :=
  ⟨by decide,
    C8_feature_payload [[1], [2]] [[3], [4]] [[5]] [] [[6], [7]] 1 batchZeroInfo
      4 2 true false true false 3 1 1 false 3 2 33 1 1
      (by decide) (by decide) (by decide) (by decide) (by decide)⟩

/-! ### The running-sum folds of `set_nnum_cum` and `set_ptr_dis` -/

theorem cumFold_length (g : ℕ → ℤ) (m : ℕ) (base : List ℤ) :
    ((List.range m).foldl (fun c d => c.set (d + 1) (c.getD d 0 + g d)) base).length =
      base.length := by
  induction m with
  | zero => rfl
  | succ m ih =>
    rw [List.range_succ, List.foldl_append]
    simp only [List.foldl_cons, List.foldl_nil, List.length_set]
    exact ih

theorem cumFold_getD (g : ℕ → ℤ) : ∀ (m : ℕ) (base : List ℤ), m < base.length →
    ((List.range m).foldl (fun c d => c.set (d + 1) (c.getD d 0 + g d)) base).getD m 0 =
      base.getD 0 0 + ((List.range m).map g).sum := by
  intro m
  induction m with
  | zero => intro base h; simp
  | succ m ih =>
    intro base h
    rw [List.range_succ, List.foldl_append]
    simp only [List.foldl_cons, List.foldl_nil]
    rw [getD_set_self _ _ _ _ (by rw [cumFold_length]; omega)]
    rw [ih base (by omega), List.map_append, List.sum_append]
    simp only [List.map_cons, List.map_nil, List.sum_cons, List.sum_nil]
    ring

theorem cumFold_stable (g : ℕ → ℤ) : ∀ (m j : ℕ) (base : List ℤ), j ≤ m →
    ((List.range m).foldl (fun c d => c.set (d + 1) (c.getD d 0 + g d)) base).getD j 0 =
      ((List.range j).foldl (fun c d => c.set (d + 1) (c.getD d 0 + g d)) base).getD j 0 := by
  intro m
  induction m with
  | zero =>
    intro j base h
    have : j = 0 := by omega
    subst this; rfl
  | succ m ih =>
    intro j base h
    by_cases hj : j ≤ m
    · rw [List.range_succ, List.foldl_append]
      simp only [List.foldl_cons, List.foldl_nil]
      rw [getD_set_ne _ _ _ _ _ (by omega)]
      exact ih j base hj
    · have : j = m + 1 := by omega
      subst this; rfl

theorem property_index_pow (i : ℕ) (h : i < kPTypeNum) : property_index (1 <<< i) = i := by
  have h6 : i < 6 := h
  interval_cases i <;> rfl

/-- After `set_nnum_cum 0`, the capacity slot `nnum_cum_[depth_+2]` holds
the total node count over all layers. -/
theorem set_nnum_cum_total (s : OctreeInfoState) (hcum : s.nnum_cum_.length = 16)
    (hd8 : s.depth_.toNat ≤ 8)
    (hnn : 0 ≤ ((List.range (s.depth_.toNat + 1)).map (fun d => s.nnum_.getD d 0)).sum) :
    (s.set_nnum_cum 0).nnum_cum_.getD (s.depth_.toNat + 2) 0 =
      ((List.range (s.depth_.toNat + 1)).map (fun d => s.nnum_.getD d 0)).sum := by
  simp only [OctreeInfoState.set_nnum_cum]
  have hblen : (s.nnum_cum_.set 0 0).length = 16 := by
    rw [List.length_set, hcum]
  have hflen : ((List.range (s.depth_.toNat + 1)).foldl
      (fun c d => c.set (d + 1) (c.getD d 0 + s.nnum_.getD d 0))
      (s.nnum_cum_.set 0 0)).length = 16 := by
    rw [cumFold_length, hblen]
  have hval : ((List.range (s.depth_.toNat + 1)).foldl
      (fun c d => c.set (d + 1) (c.getD d 0 + s.nnum_.getD d 0))
      (s.nnum_cum_.set 0 0)).getD (s.depth_.toNat + 1) 0 =
      ((List.range (s.depth_.toNat + 1)).map (fun d => s.nnum_.getD d 0)).sum := by
    rw [cumFold_getD _ _ _ (by omega), getD_set_self _ _ _ _ (by omega)]
    ring
  rw [getD_set_self _ _ _ _ (by rw [hflen]; omega), hval]
  rw [if_neg (by omega)]

/-- `set_ptr_dis` writes `ptr_dis_[0] = sizeof(OctreeInfo)` and gives each
property the byte extent `4 * num * channels_[i]`. -/
theorem set_ptr_dis_spec (s : OctreeInfoState) (hpd : s.ptr_dis_.length = 8) :
    s.set_ptr_dis.ptr_dis_.getD 0 0 = sizeof_OctreeInfo ∧
    ∀ i < kPTypeNum,
      s.set_ptr_dis.ptr_dis_.getD (i + 1) 0 - s.set_ptr_dis.ptr_dis_.getD i 0 =
        4 * (if s.locations (1 <<< i) = -1 then s.total_nnum_capacity
             else s.nnum (s.locations (1 <<< i))) * s.channels_.getD i 0 := by
  simp only [OctreeInfoState.set_ptr_dis]
  have hblen : (s.ptr_dis_.set 0 sizeof_OctreeInfo).length = 8 := by
    rw [List.length_set, hpd]
  constructor
  · rw [cumFold_stable _ _ 0 _ (by omega)]
    simp only [List.range_zero, List.foldl_nil]
    exact getD_set_self _ _ _ _ (by omega)
  · intro i hi
    have hi6 : i < 6 := hi
    rw [cumFold_stable _ kPTypeNum (i + 1) _ (by omega),
      cumFold_stable _ kPTypeNum i _ (by omega)]
    rw [cumFold_getD _ _ _ (by omega), cumFold_getD _ _ _ (by omega)]
    rw [List.range_succ, List.map_append, List.sum_append]
    simp

/-- Claim C7: after `set_nnum_cum` (default capacity) and `set_ptr_dis`,
the byte range of property `i` has length `4 * channels[i] * num`, where
`num` is the total node count over all layers when `locations[i] = -1` and
the node count at the stored location otherwise; `ptr_dis_[0]` is
`sizeof(OctreeInfo)`, and absent properties (whose channel count is `0`)
contribute length `0`. -/
theorem C7_ptr_dis_lengths (s : OctreeInfoState)
    (hcum : s.nnum_cum_.length = 16) (hpd : s.ptr_dis_.length = 8)
    (hd8 : s.depth_.toNat ≤ 8)
    (hnn : ∀ d : ℕ, d < s.depth_.toNat + 1 → 0 ≤ s.nnum_.getD d 0)
    (hcons : ∀ i, i < kPTypeNum →
      (s.channels_.getD i 0 = 0 ↔ s.content_flags_ &&& (1 <<< i) = 0)) :
    ((s.set_nnum_cum 0).set_ptr_dis).ptr_dis_.getD 0 0 = sizeof_OctreeInfo ∧
    ∀ i < kPTypeNum,
      ((s.set_nnum_cum 0).set_ptr_dis).ptr_dis_.getD (i + 1) 0 -
          ((s.set_nnum_cum 0).set_ptr_dis).ptr_dis_.getD i 0 =
        4 * s.channels_.getD i 0 *
          (if s.locations_.getD i 0 = -1 then
            ((List.range (s.depth_.toNat + 1)).map (fun d => s.nnum_.getD d 0)).sum
          else s.nnum_.getD (s.locations_.getD i 0).toNat 0) := by
  have hsum : 0 ≤ ((List.range (s.depth_.toNat + 1)).map (fun d => s.nnum_.getD d 0)).sum := by
    apply List.sum_nonneg
    intro x hx
    obtain ⟨d, hd, rfl⟩ := List.mem_map.mp hx
    exact hnn d (List.mem_range.mp hd)
  have hspec := set_ptr_dis_spec (s.set_nnum_cum 0) hpd
  refine ⟨hspec.1, ?_⟩
  intro i hi
  rw [(hspec.2 i hi)]
  rw [show (s.set_nnum_cum 0).channels_ = s.channels_ from rfl]
  by_cases hch : s.channels_.getD i 0 = 0
  · rw [hch]
    ring
  · have hflag : (s.set_nnum_cum 0).content_flags_ &&& (1 <<< i) ≠ 0 := by
      rw [show (s.set_nnum_cum 0).content_flags_ = s.content_flags_ from rfl]
      intro h0
      exact hch ((hcons i hi).mpr h0)
    have hhp : (s.set_nnum_cum 0).has_property (1 <<< i) = true := by
      simp [OctreeInfoState.has_property, hflag]
    have hloc : (s.set_nnum_cum 0).locations (1 <<< i) = s.locations_.getD i 0 := by
      simp only [OctreeInfoState.locations, hhp]
      rw [property_index_pow i hi]
      rfl
    rw [hloc]
    by_cases hl : s.locations_.getD i 0 = -1
    · rw [if_pos hl, if_pos hl]
      rw [show (s.set_nnum_cum 0).total_nnum_capacity =
          (s.set_nnum_cum 0).nnum_cum_.getD ((s.set_nnum_cum 0).depth_.toNat + 2) 0 from rfl]
      rw [show (s.set_nnum_cum 0).depth_ = s.depth_ from rfl]
      rw [set_nnum_cum_total s hcum hd8 hsum]
      ring
    · rw [if_neg hl, if_neg hl]
      rw [show (s.set_nnum_cum 0).nnum (s.locations_.getD i 0) =
          s.nnum_.getD (s.locations_.getD i 0).toNat 0 from rfl]
      ring

/-- Closed witness for Claim C7 on the concrete depth-2 header
`ptrDisInfo`. -/
theorem C7_ptr_dis_lengths_witness :
    (ptrDisInfo.nnum_cum_.length = 16 ∧ ptrDisInfo.ptr_dis_.length = 8 ∧
     ptrDisInfo.depth_.toNat ≤ 8 ∧
     (∀ d : ℕ, d < ptrDisInfo.depth_.toNat + 1 → 0 ≤ ptrDisInfo.nnum_.getD d 0) ∧
     (∀ i, i < kPTypeNum →
       (ptrDisInfo.channels_.getD i 0 = 0 ↔ ptrDisInfo.content_flags_ &&& (1 <<< i) = 0))) ∧
    (((ptrDisInfo.set_nnum_cum 0).set_ptr_dis).ptr_dis_.getD 0 0 = sizeof_OctreeInfo ∧
     ∀ i < kPTypeNum,
       ((ptrDisInfo.set_nnum_cum 0).set_ptr_dis).ptr_dis_.getD (i + 1) 0 -
           ((ptrDisInfo.set_nnum_cum 0).set_ptr_dis).ptr_dis_.getD i 0 =
         4 * ptrDisInfo.channels_.getD i 0 *
           (if ptrDisInfo.locations_.getD i 0 = -1 then
             ((List.range (ptrDisInfo.depth_.toNat + 1)).map
               (fun d => ptrDisInfo.nnum_.getD d 0)).sum
           else ptrDisInfo.nnum_.getD (ptrDisInfo.locations_.getD i 0).toNat 0)) :=
  ⟨⟨by decide, by decide, by decide, by decide, by decide⟩,
    C7_ptr_dis_lengths ptrDisInfo (by decide) (by decide) (by decide)
      (by decide) (by decide)⟩

/-! ### Theorems about `build_structure` -/

theorem getD_range (n i : ℕ) (h : i < n) : (List.range n).getD i 0 = i := by
  rw [List.getD_eq_getElem?_getD, List.getElem?_range h]
  rfl

/-- Claim C3 counterexample: at `depth = 2`, `full_layer = 1` with the
single occupied key `5`, layer `full_layer` is not all-internal with
`children[d][i] = i` — the unoccupied slot `1` holds `-1`. -/
theorem C3_counterexample :
    ¬ ∀ i < 8 ^ 1, ((build_structure 2 1 [5]).2 1).getD i (-1) = (i : ℤ) := by
  decide

/-- Claim C3 as amended: after `build_structure`, for `d ≤ full_layer` the
layer is full (`nnum[d] = 8^d`, `keys[d][i] = i`), and for `d` strictly
below `full_layer` every node is internal with `children[d][i] = i`; at
`d = full_layer` itself the loop guard leaves `-1` entries (they are
patched later only for the occupied keys, which receive ranks, not `i`). -/
theorem C3_full_layers (depth full : ℕ) (nk : List ℕ) :
    ∀ d ≤ full,
      ((build_structure depth full nk).1 d).length = 8 ^ d ∧
      (∀ i < 8 ^ d, ((build_structure depth full nk).1 d).getD i 0 = i) ∧
      (d < full → ∀ i < 8 ^ d,
        ((build_structure depth full nk).2 d).getD i (-1) = (i : ℤ)) := by
  intro d hd
  refine ⟨?_, ?_, ?_⟩
  · show (if d ≤ full then fullLayerKeys d
      else if d ≤ depth then ((buildLoop full depth nk).1.getD (depth - d) ([], [])).1
      else []).length = 8 ^ d
    rw [if_pos hd]
    simp [fullLayerKeys]
  · intro i hi
    show (if d ≤ full then fullLayerKeys d
      else if d ≤ depth then ((buildLoop full depth nk).1.getD (depth - d) ([], [])).1
      else []).getD i 0 = i
    rw [if_pos hd]
    exact getD_range _ _ hi
  · intro hlt i hi
    have hch : (build_structure depth full nk).2 d = fullLayerChildren d full := by
      show (if d < full then fullLayerChildren d full else _) = fullLayerChildren d full
      rw [if_pos hlt]
    rw [hch, fullLayerChildren, if_pos (by omega)]
    rw [List.getD_eq_getElem?_getD]
    rw [List.getElem?_map (fun j : ℕ => (j : ℤ))]
    rw [List.getElem?_range hi]
    rfl

/-- Closed witness for the amended Claim C3 at `depth = 2`,
`full_layer = 1`, occupied key `5`, layer `d = 1`. -/
theorem C3_full_layers_witness :
    ((build_structure 2 1 [5]).1 1).length = 8 ^ 1 ∧
    (∀ i < 8 ^ 1, ((build_structure 2 1 [5]).1 1).getD i 0 = i) ∧
    (1 < 1 → ∀ i < 8 ^ 1, ((build_structure 2 1 [5]).2 1).getD i (-1) = (i : ℤ)) :=
  C3_full_layers 2 1 [5] 1 (by decide)

/-! ### Theorems about `trim_octree` -/

theorem foldl_inv {α β : Type} (f : β → α → β) (P : β → Prop) :
    ∀ (l : List α) (b : β), P b → (∀ x a, a ∈ l → P x → P (f x a)) → P (l.foldl f b) := by
  intro l
  induction l with
  | nil => intro b hb _; exact hb
  | cons a t ih =>
    intro b hb hf
    exact ih (f b a) (hf b a (List.mem_cons_self a t) hb)
      (fun x a' ha' hx => hf x a' (List.mem_cons_of_mem _ ha') hx)

theorem getD_replicate {α : Type} (n i : ℕ) (a : α) :
    (List.replicate n a).getD i a = a := by
  rw [List.getD_eq_getElem?_getD, List.getElem?_replicate]
  split <;> rfl

theorem getD_nonneg (l : List ℚ) (h : ∀ x ∈ l, 0 ≤ x) (i : ℕ) : 0 ≤ l.getD i 0 := by
  rw [List.getD_eq_getElem?_getD]
  cases hx : l[i]? with
  | none => exact le_refl 0
  | some x => exact h x (List.getElem?_mem hx)

theorem genChildStep_length {children_d : List ℤ} {drop_dp : List TrimType}
    {nerr_d derr_d : List ℚ} {td tn : ℚ} {has_dis : Bool} {i : ℕ} {t : ℤ}
    {st : List TrimType × Bool} {j : ℕ} :
    (genChildStep children_d drop_dp nerr_d derr_d td tn has_dis i t st j).1.length =
      st.1.length := by
  simp [genChildStep, List.length_set]

theorem genInner_length {children_d : List ℤ} {drop_dp : List TrimType}
    {nerr_d derr_d : List ℚ} {td tn : ℚ} {has_dis : Bool} {i : ℕ} {t : ℤ}
    {st : List TrimType × Bool} {m : ℕ} :
    (((List.range m).foldl
      (genChildStep children_d drop_dp nerr_d derr_d td tn has_dis i t) st)).1.length =
      st.1.length := by
  refine foldl_inv _ (fun x => x.1.length = st.1.length) _ st rfl ?_
  intro x a _ hx
  rw [genChildStep_length, hx]

theorem genChildStep_frame {children_d : List ℤ} {drop_dp : List TrimType}
    {nerr_d derr_d : List ℚ} {td tn : ℚ} {has_dis : Bool} {i : ℕ} {t : ℤ}
    {st : List TrimType × Bool} {j s : ℕ} (h : 8 * t.toNat + j ≠ s) :
    (genChildStep children_d drop_dp nerr_d derr_d td tn has_dis i t st j).1.getD s
        TrimType.kKeep = st.1.getD s TrimType.kKeep := by
  simp only [genChildStep]
  exact getD_set_ne _ _ _ _ _ h

theorem genInner_frame {children_d : List ℤ} {drop_dp : List TrimType}
    {nerr_d derr_d : List ℚ} {td tn : ℚ} {has_dis : Bool} {i : ℕ} {t : ℤ}
    {st : List TrimType × Bool} {s : ℕ} {m : ℕ}
    (h : ∀ j < m, 8 * t.toNat + j ≠ s) :
    (((List.range m).foldl
      (genChildStep children_d drop_dp nerr_d derr_d td tn has_dis i t) st)).1.getD s
        TrimType.kKeep = st.1.getD s TrimType.kKeep := by
  refine foldl_inv _ (fun x => x.1.getD s TrimType.kKeep = st.1.getD s TrimType.kKeep)
    _ st rfl ?_
  intro x a ha hx
  rw [genChildStep_frame (h a (List.mem_range.mp ha)), hx]

theorem genInner_val {children_d : List ℤ} {drop_dp : List TrimType}
    {nerr_d derr_d : List ℚ} {td tn : ℚ} {has_dis : Bool} {i : ℕ} {t : ℤ}
    {st : List TrimType × Bool} {j0 : ℕ} (hj0 : j0 < 8)
    (hidx : 8 * t.toNat + j0 < st.1.length)
    (h0 : st.1.getD (8 * t.toNat + j0) TrimType.kKeep = TrimType.kKeep) :
    ∀ m, m ≤ 8 → j0 < m →
      (((List.range m).foldl
        (genChildStep children_d drop_dp nerr_d derr_d td tn has_dis i t) st)).1.getD
          (8 * t.toNat + j0) TrimType.kKeep =
        trimChildFlag (decide (drop_dp.getD i TrimType.kKeep = TrimType.kKeep))
          (nerr_d.getD (8 * t.toNat + j0) 0) (derr_d.getD (8 * t.toNat + j0) 0)
          td tn has_dis TrimType.kKeep := by
  intro m
  induction m with
  | zero => intro _ h; omega
  | succ m ih =>
    intro hm hjm
    rw [List.range_succ, List.foldl_append, List.foldl_cons, List.foldl_nil]
    by_cases hcase : j0 = m
    · have hkeep : (((List.range m).foldl
          (genChildStep children_d drop_dp nerr_d derr_d td tn has_dis i t) st)).1.getD
            (8 * t.toNat + j0) TrimType.kKeep = TrimType.kKeep := by
        rw [genInner_frame (fun j hj => by omega), h0]
      simp only [genChildStep]
      rw [hcase] at hkeep ⊢
      rw [getD_set_self _ _ _ _ (by rw [genInner_length]; omega), hkeep]
    · have hj0m : j0 < m := by omega
      rw [genChildStep_frame (by omega)]
      exact ih (by omega) hj0m

/-- The flag value assigned by the generation loop on the block of an
internal parent `p`, assuming distinct internal parents point at distinct
blocks and all blocks are materialized in range. -/
theorem genOuter_val (children_dp children_d : List ℤ) (drop_dp : List TrimType)
    (nerr_d derr_d : List ℚ) (td tn : ℚ) (has_dis : Bool)
    (hnonneg : ∀ p < children_dp.length,
      children_dp.getD p (-1) = -1 ∨ 0 ≤ children_dp.getD p (-1))
    (hinj : ∀ p < children_dp.length, ∀ q < children_dp.length,
      children_dp.getD p (-1) ≠ -1 → children_dp.getD p (-1) = children_dp.getD q (-1) →
      p = q)
    (hblock : ∀ p < children_dp.length, children_dp.getD p (-1) ≠ -1 →
      8 * (children_dp.getD p (-1)).toNat + 7 < children_d.length)
    (p : ℕ) (hp : p < children_dp.length) (hint : children_dp.getD p (-1) ≠ -1)
    (j0 : ℕ) (hj0 : j0 < 8) :
    (trimFlagsGen children_dp children_d drop_dp nerr_d derr_d td tn has_dis).1.getD
        (8 * (children_dp.getD p (-1)).toNat + j0) TrimType.kKeep =
      trimChildFlag (decide (drop_dp.getD p TrimType.kKeep = TrimType.kKeep))
        (nerr_d.getD (8 * (children_dp.getD p (-1)).toNat + j0) 0)
        (derr_d.getD (8 * (children_dp.getD p (-1)).toNat + j0) 0)
        td tn has_dis TrimType.kKeep := by
  set tp := children_dp.getD p (-1) with htp
  set idx0 := 8 * tp.toNat + j0 with hidx0
  set init : List TrimType × Bool := (List.replicate children_d.length TrimType.kKeep, true)
    with hinit
  have hdisj : ∀ q, q < children_dp.length → q ≠ p → children_dp.getD q (-1) ≠ -1 →
      ∀ j < 8, 8 * (children_dp.getD q (-1)).toNat + j ≠ idx0 := by
    intro q hq hqp hqint j hj heq
    have h1 : 0 ≤ children_dp.getD q (-1) := (hnonneg q hq).resolve_left hqint
    have h2 : 0 ≤ tp := (hnonneg p hp).resolve_left hint
    have hveq : children_dp.getD q (-1) = tp := by omega
    exact hqp (hinj q hq p hp hqint (by rw [hveq, htp]))
  have main : ∀ n, n ≤ children_dp.length →
      ((((List.range n).foldl
        (genParentStep children_dp children_d drop_dp nerr_d derr_d td tn has_dis)
        init)).1.length = children_d.length) ∧
      (n ≤ p → (((List.range n).foldl
        (genParentStep children_dp children_d drop_dp nerr_d derr_d td tn has_dis)
        init)).1.getD idx0 TrimType.kKeep = TrimType.kKeep) ∧
      (p < n → (((List.range n).foldl
        (genParentStep children_dp children_d drop_dp nerr_d derr_d td tn has_dis)
        init)).1.getD idx0 TrimType.kKeep =
        trimChildFlag (decide (drop_dp.getD p TrimType.kKeep = TrimType.kKeep))
          (nerr_d.getD idx0 0) (derr_d.getD idx0 0) td tn has_dis TrimType.kKeep) := by
    intro n
    induction n with
    | zero =>
      intro _
      refine ⟨by simp [hinit], fun _ => ?_, fun h => by omega⟩
      show init.1.getD idx0 TrimType.kKeep = _
      rw [hinit]
      exact getD_replicate _ _ _
    | succ n ih =>
      intro hn
      obtain ⟨ihlen, ihpre, ihpost⟩ := ih (by omega)
      rw [List.range_succ, List.foldl_append, List.foldl_cons, List.foldl_nil]
      simp only [genParentStep]
      by_cases hleaf : children_dp.getD n (-1) = -1
      · rw [if_pos hleaf]
        refine ⟨ihlen, fun h => ihpre (by omega), fun h => ?_⟩
        rcases Nat.lt_succ_iff_lt_or_eq.mp h with h' | h'
        · exact ihpost h'
        · exfalso
          apply hint
          rw [htp, h']
          exact hleaf
      · rw [if_neg hleaf]
        refine ⟨by rw [genInner_length, ihlen], ?_, ?_⟩
        · intro h
          rw [genInner_frame (hdisj n (by omega) (by omega) hleaf)]
          exact ihpre (by omega)
        · intro h
          rcases Nat.lt_succ_iff_lt_or_eq.mp h with h' | h'
          · rw [genInner_frame (hdisj n (by omega) (by omega) hleaf)]
            exact ihpost h'
          · have hpn : p = n := h'
            subst hpn
            rw [genInner_val hj0
              (by rw [ihlen]; have := hblock p hp hint; omega)
              (ihpre (le_refl p)) 8 (le_refl 8) hj0]
  exact (main children_dp.length (le_refl _)).2.2 hp

/-- Claim C5: inside `trim_octree`'s flag generation, each child slot
`idx = 8t + j` of an internal parent is flagged `kDropChildren` exactly
when `normal_err[idx] < th_norm` and (`!has_displace` or
`distance_err[idx] < th_dist`) if the parent is `kKeep` (staying `kKeep`
otherwise), and is flagged `kDrop` when the parent is `kDrop` or
`kDropChildren`. -/
theorem C5_trim_flag_rule (children_dp children_d : List ℤ) (drop_dp : List TrimType)
    (nerr_d derr_d : List ℚ) (td tn : ℚ) (has_dis : Bool)
    (hnonneg : ∀ p < children_dp.length,
      children_dp.getD p (-1) = -1 ∨ 0 ≤ children_dp.getD p (-1))
    (hinj : ∀ p < children_dp.length, ∀ q < children_dp.length,
      children_dp.getD p (-1) ≠ -1 → children_dp.getD p (-1) = children_dp.getD q (-1) →
      p = q)
    (hblock : ∀ p < children_dp.length, children_dp.getD p (-1) ≠ -1 →
      8 * (children_dp.getD p (-1)).toNat + 7 < children_d.length) :
    ∀ p < children_dp.length, ∀ t : ℕ, children_dp.getD p (-1) = (t : ℤ) →
      ∀ j < 8,
        (trimFlagsGen children_dp children_d drop_dp nerr_d derr_d td tn has_dis).1.getD
            (8 * t + j) TrimType.kKeep =
          if drop_dp.getD p TrimType.kKeep = TrimType.kKeep then
            (if ((has_dis = false) ∨ (has_dis = true ∧ derr_d.getD (8 * t + j) 0 < td)) ∧
                nerr_d.getD (8 * t + j) 0 < tn then
              TrimType.kDropChildren
            else TrimType.kKeep)
          else TrimType.kDrop := by
  intro p hp t ht j hj
  have hint : children_dp.getD p (-1) ≠ -1 := by rw [ht]; omega
  have htn : (children_dp.getD p (-1)).toNat = t := by rw [ht]; exact Int.toNat_natCast t
  have hval := genOuter_val children_dp children_d drop_dp nerr_d derr_d td tn has_dis
    hnonneg hinj hblock p hp hint j hj
  rw [htn] at hval
  rw [hval, trimChildFlag]
  by_cases hk : drop_dp.getD p TrimType.kKeep = TrimType.kKeep
  · simp [hk]
  · simp [hk]

/-- Closed witness for Claim C5: one internal parent with block 0, its
child slot 0 occupied. -/
theorem C5_trim_flag_rule_witness :
    ((∀ p < ([(0 : ℤ)] : List ℤ).length,
        ([(0 : ℤ)] : List ℤ).getD p (-1) = -1 ∨ 0 ≤ ([(0 : ℤ)] : List ℤ).getD p (-1)) ∧
     (∀ p < ([(0 : ℤ)] : List ℤ).length, ∀ q < ([(0 : ℤ)] : List ℤ).length,
        ([(0 : ℤ)] : List ℤ).getD p (-1) ≠ -1 →
        ([(0 : ℤ)] : List ℤ).getD p (-1) = ([(0 : ℤ)] : List ℤ).getD q (-1) → p = q) ∧
     (∀ p < ([(0 : ℤ)] : List ℤ).length, ([(0 : ℤ)] : List ℤ).getD p (-1) ≠ -1 →
        8 * (([(0 : ℤ)] : List ℤ).getD p (-1)).toNat + 7 <
          ([3, -1, -1, -1, -1, -1, -1, -1] : List ℤ).length)) ∧
    (∀ p < ([(0 : ℤ)] : List ℤ).length, ∀ t : ℕ,
      ([(0 : ℤ)] : List ℤ).getD p (-1) = (t : ℤ) → ∀ j < 8,
        (trimFlagsGen [(0 : ℤ)] [3, -1, -1, -1, -1, -1, -1, -1] [TrimType.kKeep]
            [0, 0, 0, 0, 0, 0, 0, 0] [0, 0, 0, 0, 0, 0, 0, 0] 1 1 false).1.getD
            (8 * t + j) TrimType.kKeep =
          if [TrimType.kKeep].getD p TrimType.kKeep = TrimType.kKeep then
            (if ((false = false) ∨ (false = true ∧
                ([0, 0, 0, 0, 0, 0, 0, 0] : List ℚ).getD (8 * t + j) 0 < 1)) ∧
                ([0, 0, 0, 0, 0, 0, 0, 0] : List ℚ).getD (8 * t + j) 0 < 1 then
              TrimType.kDropChildren
            else TrimType.kKeep)
          else TrimType.kDrop) :=
  ⟨⟨by decide, by decide, by decide⟩,
    C5_trim_flag_rule [(0 : ℤ)] [3, -1, -1, -1, -1, -1, -1, -1] [TrimType.kKeep]
      [0, 0, 0, 0, 0, 0, 0, 0] [0, 0, 0, 0, 0, 0, 0, 0] 1 1 false
      (by decide) (by decide) (by decide)⟩

theorem trimFlagsGen_length (children_dp children_d : List ℤ) (drop_dp : List TrimType)
    (nerr_d derr_d : List ℚ) (td tn : ℚ) (has_dis : Bool) :
    (trimFlagsGen children_dp children_d drop_dp nerr_d derr_d td tn has_dis).1.length =
      children_d.length := by
  refine foldl_inv _ (fun x : List TrimType × Bool => x.1.length = children_d.length)
    _ _ (by simp) ?_
  intro x a _ hx
  simp only [genParentStep]
  split
  · exact hx
  · rw [genInner_length, hx]

/-- A step of the induction through a `List.range` fold: once index `i`
establishes `P` and every step preserves it, the fold satisfies `P`. -/
theorem foldl_exists_after {β : Type} (f : β → ℕ → β) (P : β → Prop) (b : β) (i : ℕ)
    (hpres : ∀ x a, P x → P (f x a)) (hstep : ∀ x, P (f x i)) :
    ∀ n, i < n → P ((List.range n).foldl f b) := by
  intro n
  induction n with
  | zero => intro h; omega
  | succ n ih =>
    intro hin
    rw [List.range_succ, List.foldl_append, List.foldl_cons, List.foldl_nil]
    by_cases hcase : i = n
    · rw [← hcase]
      exact hstep _
    · exact hpres _ _ (ih (by omega))

theorem genInner_all {children_d : List ℤ} {drop_dp : List TrimType}
    {nerr_d derr_d : List ℚ} {td tn : ℚ} {has_dis : Bool} {i : ℕ} {t : ℤ}
    {st : List TrimType × Bool} :
    ∀ m, m ≤ 8 →
      (((List.range m).foldl
        (genChildStep children_d drop_dp nerr_d derr_d td tn has_dis i t) st)).2 = false →
      st.2 = false ∨ ∃ j < m,
        (((List.range m).foldl
          (genChildStep children_d drop_dp nerr_d derr_d td tn has_dis i t) st)).1.getD
            (8 * t.toNat + j) TrimType.kKeep = TrimType.kKeep ∧
        children_d.getD (8 * t.toNat + j) (-1) ≠ -1 := by
  intro m
  induction m with
  | zero => intro _ h; exact Or.inl h
  | succ m ih =>
    intro hm h
    rw [List.range_succ, List.foldl_append, List.foldl_cons, List.foldl_nil] at h ⊢
    by_cases hF2 : (((List.range m).foldl
        (genChildStep children_d drop_dp nerr_d derr_d td tn has_dis i t) st)).2 = false
    · rcases ih (by omega) hF2 with h0 | ⟨j, hj, hflag, hint⟩
      · exact Or.inl h0
      · refine Or.inr ⟨j, by omega, ?_, hint⟩
        rw [genChildStep_frame (by omega)]
        exact hflag
    · have hF2t : (((List.range m).foldl
          (genChildStep children_d drop_dp nerr_d derr_d td tn has_dis i t) st)).2 = true := by
        revert hF2
        cases (((List.range m).foldl
          (genChildStep children_d drop_dp nerr_d derr_d td tn has_dis i t) st)).2 <;> simp
      simp only [genChildStep, hF2t, if_true, Bool.not_eq_false'] at h
      have hcond := of_decide_eq_true h
      refine Or.inr ⟨m, by omega, ?_, hcond.2⟩
      simp only [genChildStep]
      exact hcond.1

theorem genOuter_all (children_dp children_d : List ℤ) (drop_dp : List TrimType)
    (nerr_d derr_d : List ℚ) (td tn : ℚ) (has_dis : Bool)
    (hnonneg : ∀ p < children_dp.length,
      children_dp.getD p (-1) = -1 ∨ 0 ≤ children_dp.getD p (-1))
    (hinj : ∀ p < children_dp.length, ∀ q < children_dp.length,
      children_dp.getD p (-1) ≠ -1 → children_dp.getD p (-1) = children_dp.getD q (-1) →
      p = q)
    (hblock : ∀ p < children_dp.length, children_dp.getD p (-1) ≠ -1 →
      8 * (children_dp.getD p (-1)).toNat + 7 < children_d.length) :
    (trimFlagsGen children_dp children_d drop_dp nerr_d derr_d td tn has_dis).2 = false →
    ∃ s < children_d.length,
      (trimFlagsGen children_dp children_d drop_dp nerr_d derr_d td tn has_dis).1.getD s
          TrimType.kKeep = TrimType.kKeep ∧
      children_d.getD s (-1) ≠ -1 := by
  set init : List TrimType × Bool := (List.replicate children_d.length TrimType.kKeep, true)
    with hinit
  have main : ∀ n, n ≤ children_dp.length →
      (((List.range n).foldl
        (genParentStep children_dp children_d drop_dp nerr_d derr_d td tn has_dis)
        init)).2 = false →
      ∃ s < children_d.length,
        (((List.range n).foldl
          (genParentStep children_dp children_d drop_dp nerr_d derr_d td tn has_dis)
          init)).1.getD s TrimType.kKeep = TrimType.kKeep ∧
        children_d.getD s (-1) ≠ -1 ∧
        ∃ p < n, children_dp.getD p (-1) ≠ -1 ∧
          ∃ j < 8, s = 8 * (children_dp.getD p (-1)).toNat + j := by
    intro n
    induction n with
    | zero =>
      intro _ h
      rw [List.range_zero, List.foldl_nil, hinit] at h
      exact absurd h (by simp)
    | succ n ih =>
      intro hn h
      rw [List.range_succ, List.foldl_append, List.foldl_cons, List.foldl_nil] at h ⊢
      simp only [genParentStep] at h ⊢
      by_cases hleaf : children_dp.getD n (-1) = -1
      · rw [if_pos hleaf] at h ⊢
        obtain ⟨s, hs, hflag, hint, p, hp, hpint, j, hj, hsj⟩ := ih (by omega) h
        exact ⟨s, hs, hflag, hint, p, by omega, hpint, j, hj, hsj⟩
      · rw [if_neg hleaf] at h ⊢
        rcases genInner_all 8 (le_refl 8) h with hF2 | ⟨j, hj, hflag, hint⟩
        · obtain ⟨s, hs, hflag, hint, p, hp, hpint, j, hj, hsj⟩ := ih (by omega) hF2
          refine ⟨s, hs, ?_, hint, p, by omega, hpint, j, hj, hsj⟩
          rw [genInner_frame ?_]
          · exact hflag
          · intro j2 hj2 heq
            have h1 : 0 ≤ children_dp.getD n (-1) := (hnonneg n (by omega)).resolve_left hleaf
            have h2 : 0 ≤ children_dp.getD p (-1) := (hnonneg p (by omega)).resolve_left hpint
            have hveq : children_dp.getD n (-1) = children_dp.getD p (-1) := by omega
            have := hinj n (by omega) p (by omega) hleaf hveq
            omega
        · refine ⟨8 * (children_dp.getD n (-1)).toNat + j, ?_, hflag, hint, n, by omega,
            hleaf, j, hj, rfl⟩
          have := hblock n (by omega) hleaf
          omega
  intro h
  obtain ⟨s, hs, hflag, hint, _⟩ := main children_dp.length (le_refl _) h
  exact ⟨s, hs, hflag, hint⟩

theorem rescueChildStep_mono {children_d : List ℤ} {nerr_d : List ℚ} {t : ℤ}
    {m : ℕ × ℚ} {j : ℕ} : m.2 ≤ (rescueChildStep children_d nerr_d t m j).2 := by
  simp only [rescueChildStep]
  split
  · next h => exact le_of_lt h.2
  · exact le_refl _

theorem rescueInner_mono {children_d : List ℤ} {nerr_d : List ℚ} {t : ℤ}
    {m : ℕ × ℚ} (k : ℕ) :
    m.2 ≤ (((List.range k).foldl (rescueChildStep children_d nerr_d t) m)).2 := by
  refine foldl_inv _ (fun x : ℕ × ℚ => m.2 ≤ x.2) _ m (le_refl _) ?_
  intro x a _ hx
  exact le_trans hx rescueChildStep_mono

theorem rescueParentStep_mono {children_dp children_d : List ℤ} {drop_dp : List TrimType}
    {nerr_d : List ℚ} {m : ℕ × ℚ} {i : ℕ} :
    m.2 ≤ (rescueParentStep children_dp children_d drop_dp nerr_d m i).2 := by
  simp only [rescueParentStep]
  split
  · exact le_refl _
  · exact rescueInner_mono 8

theorem rescue_inv (children_dp children_d : List ℤ) (drop_dp : List TrimType)
    (nerr_d : List ℚ)
    (hblock : ∀ p < children_dp.length, children_dp.getD p (-1) ≠ -1 →
      8 * (children_dp.getD p (-1)).toNat + 7 < children_d.length) :
    0 ≤ (trimRescue children_dp children_d drop_dp nerr_d).2 →
    (trimRescue children_dp children_d drop_dp nerr_d).1 < children_d.length ∧
    children_d.getD (trimRescue children_dp children_d drop_dp nerr_d).1 (-1) ≠ -1 := by
  refine foldl_inv _ (fun x : ℕ × ℚ => 0 ≤ x.2 → x.1 < children_d.length ∧
    children_d.getD x.1 (-1) ≠ -1) _ _ (fun h => by norm_num at h) ?_
  intro x a ha hx
  simp only [rescueParentStep]
  split
  · exact hx
  · next hcond =>
    push_neg at hcond
    refine foldl_inv _ (fun y : ℕ × ℚ => 0 ≤ y.2 → y.1 < children_d.length ∧
      children_d.getD y.1 (-1) ≠ -1) _ x hx ?_
    intro y b hb hy
    have hb8 := List.mem_range.mp hb
    simp only [rescueChildStep]
    split
    · next hin =>
      intro _
      have := hblock a (List.mem_range.mp ha) hcond.1
      exact ⟨by omega, hin.1⟩
    · exact hy

theorem rescue_candidate (children_dp children_d : List ℤ) (drop_dp : List TrimType)
    (nerr_d : List ℚ) (hnerr : ∀ x ∈ nerr_d, 0 ≤ x)
    (p : ℕ) (hp : p < children_dp.length)
    (hkeep : drop_dp.getD p TrimType.kKeep = TrimType.kKeep)
    (hint : children_dp.getD p (-1) ≠ -1)
    (j0 : ℕ) (hj0 : j0 < 8)
    (hcj : children_d.getD (8 * (children_dp.getD p (-1)).toNat + j0) (-1) ≠ -1) :
    0 ≤ (trimRescue children_dp children_d drop_dp nerr_d).2 := by
  have hinner : ∀ m : ℕ × ℚ,
      0 ≤ (((List.range 8).foldl
        (rescueChildStep children_d nerr_d (children_dp.getD p (-1))) m)).2 := by
    intro m
    refine foldl_exists_after (rescueChildStep children_d nerr_d (children_dp.getD p (-1)))
      (fun y : ℕ × ℚ => 0 ≤ y.2) m j0 ?_ ?_ 8 hj0
    · intro x a hx
      exact le_trans hx rescueChildStep_mono
    · intro x
      simp only [rescueChildStep]
      split
      · next hcnd => exact getD_nonneg _ hnerr _
      · next hcnd =>
        rw [Classical.not_and_iff_or_not_not] at hcnd
        rcases hcnd with hcnd | hcnd
        · exact absurd hcj hcnd
        · push_neg at hcnd
          exact le_trans (getD_nonneg _ hnerr _) hcnd
  refine foldl_exists_after (rescueParentStep children_dp children_d drop_dp nerr_d)
    (fun y : ℕ × ℚ => 0 ≤ y.2) (0, -1) p ?_ ?_ children_dp.length hp
  · intro x a hx
    exact le_trans hx rescueParentStep_mono
  · intro x
    simp only [rescueParentStep]
    rw [if_neg (by push_neg; exact ⟨hint, hkeep⟩)]
    exact hinner x

/-- After `trimFlagsLayer`, a layer whose parent layer still holds a
`kKeep` internal node retains at least one `kKeep` internal node — either
because `all_drop` was already false, or through the rescue write. -/
theorem trimFlagsLayer_good (children_dp children_d : List ℤ) (drop_dp : List TrimType)
    (nerr_d derr_d : List ℚ) (td tn : ℚ) (has_dis : Bool)
    (hnonneg : ∀ p < children_dp.length,
      children_dp.getD p (-1) = -1 ∨ 0 ≤ children_dp.getD p (-1))
    (hinj : ∀ p < children_dp.length, ∀ q < children_dp.length,
      children_dp.getD p (-1) ≠ -1 → children_dp.getD p (-1) = children_dp.getD q (-1) →
      p = q)
    (hblock : ∀ p < children_dp.length, children_dp.getD p (-1) ≠ -1 →
      8 * (children_dp.getD p (-1)).toNat + 7 < children_d.length)
    (hchild : ∀ p < children_dp.length, children_dp.getD p (-1) ≠ -1 →
      ∃ j < 8, children_d.getD (8 * (children_dp.getD p (-1)).toNat + j) (-1) ≠ -1)
    (hnerr : ∀ x ∈ nerr_d, 0 ≤ x)
    (hgood : ∃ p < children_dp.length,
      drop_dp.getD p TrimType.kKeep = TrimType.kKeep ∧ children_dp.getD p (-1) ≠ -1) :
    ∃ s < children_d.length,
      (trimFlagsLayer children_dp children_d drop_dp nerr_d derr_d td tn has_dis).getD s
          TrimType.kKeep = TrimType.kKeep ∧
      children_d.getD s (-1) ≠ -1 := by
  obtain ⟨p, hp, hkeep, hpint⟩ := hgood
  simp only [trimFlagsLayer]
  by_cases hall : (trimFlagsGen children_dp children_d drop_dp nerr_d derr_d td tn
      has_dis).2 = true
  · rw [if_pos hall]
    obtain ⟨j0, hj0, hcj⟩ := hchild p hp hpint
    have hres0 := rescue_candidate children_dp children_d drop_dp nerr_d hnerr
      p hp hkeep hpint j0 hj0 hcj
    have hres := rescue_inv children_dp children_d drop_dp nerr_d hblock hres0
    refine ⟨(trimRescue children_dp children_d drop_dp nerr_d).1, hres.1, ?_, hres.2⟩
    exact getD_set_self _ _ _ _
      (by rw [trimFlagsGen_length]; exact hres.1)
  · rw [if_neg hall]
    exact genOuter_all children_dp children_d drop_dp nerr_d derr_d td tn has_dis
      hnonneg hinj hblock (by revert hall; cases (trimFlagsGen children_dp children_d
        drop_dp nerr_d derr_d td tn has_dis).2 <;> simp)

theorem trimChildren_mem (children_d : List ℤ) (drop_d : List TrimType) :
    ∀ e ∈ trimChildren children_d drop_d, e = -1 ∨ 0 ≤ e := by
  simp only [trimChildren]
  refine foldl_inv _ (fun x : List ℤ × ℕ => ∀ e ∈ x.1, e = -1 ∨ 0 ≤ e) _ _
    ?_ ?_
  · simp
  intro x a _ hx
  split
  · exact hx
  · split
    · intro e he
      rcases List.mem_append.mp he with he | he
      · exact hx e he
      · right
        have : e = (x.2 : ℤ) := by simpa using he
        rw [this]
        exact Int.natCast_nonneg _
    · intro e he
      rcases List.mem_append.mp he with he | he
      · exact hx e he
      · left
        simpa using he

theorem trimChildren_exists (children_d : List ℤ) (drop_d : List TrimType)
    (h : ∃ i < children_d.length,
      drop_d.getD i TrimType.kKeep = TrimType.kKeep ∧ children_d.getD i (-1) ≠ -1) :
    ∃ e ∈ trimChildren children_d drop_d, (0 : ℤ) ≤ e := by
  obtain ⟨i, hi, hkeep, hint⟩ := h
  simp only [trimChildren]
  refine foldl_exists_after _ (fun x : List ℤ × ℕ => ∃ e ∈ x.1, (0 : ℤ) ≤ e) _ i
    ?_ ?_ children_d.length hi
  · intro x a hx
    obtain ⟨e, he, h0⟩ := hx
    split
    · exact ⟨e, he, h0⟩
    · split
      · exact ⟨e, List.mem_append_left _ he, h0⟩
      · exact ⟨e, List.mem_append_left _ he, h0⟩
  · intro x
    rw [if_neg (by rw [hkeep]; intro hc; cases hc), if_pos ⟨hkeep, hint⟩]
    exact ⟨(x.2 : ℤ), List.mem_append_right _ (List.mem_singleton_self _),
      Int.natCast_nonneg _⟩

theorem calcNempty_pos (l : List ℤ) (hmem : ∀ e ∈ l, e = -1 ∨ 0 ≤ e)
    (hex : ∃ e ∈ l, (0 : ℤ) ≤ e) : 1 ≤ calcNempty l := by
  obtain ⟨e, he, h0⟩ := hex
  cases hfind : l.reverse.find? (fun c => decide (c ≠ -1)) with
  | none =>
    exfalso
    have := List.find?_eq_none.mp hfind e (List.mem_reverse.mpr he)
    simp at this
    omega
  | some c =>
    have hc1 : c ≠ -1 := by
      have := List.find?_some hfind
      simpa using this
    have hc2 : c ∈ l := List.mem_reverse.mp (List.mem_of_find?_eq_some hfind)
    have := hmem c hc2
    simp only [calcNempty, hfind]
    omega

/-- Every layer from `depth_adp - 1` up to `depth` keeps at least one
internal node flagged `kKeep` through the whole top-down pass. -/
theorem trimFlags_good (children : ℕ → List ℤ) (nerr derr : ℕ → List ℚ)
    (td tn : ℚ) (has_dis : Bool) (depth_adp depth : ℕ)
    (hadp1 : 1 ≤ depth_adp)
    (hbase : ∃ i < (children (depth_adp - 1)).length,
      (children (depth_adp - 1)).getD i (-1) ≠ -1)
    (hnonneg : ∀ d < depth, ∀ p < (children d).length,
      (children d).getD p (-1) = -1 ∨ 0 ≤ (children d).getD p (-1))
    (hinj : ∀ d < depth, ∀ p < (children d).length, ∀ q < (children d).length,
      (children d).getD p (-1) ≠ -1 →
      (children d).getD p (-1) = (children d).getD q (-1) → p = q)
    (hblock : ∀ d < depth, ∀ p < (children d).length, (children d).getD p (-1) ≠ -1 →
      8 * ((children d).getD p (-1)).toNat + 7 < (children (d + 1)).length)
    (hchild : ∀ d < depth, ∀ p < (children d).length, (children d).getD p (-1) ≠ -1 →
      ∃ j < 8, (children (d + 1)).getD
        (8 * ((children d).getD p (-1)).toNat + j) (-1) ≠ -1)
    (hnerr : ∀ d < depth + 1, ∀ x ∈ nerr d, 0 ≤ x) :
    ∀ d, depth_adp - 1 ≤ d → d ≤ depth →
      ∃ s < (children d).length,
        (trimFlags children nerr derr td tn has_dis depth_adp d).getD s
            TrimType.kKeep = TrimType.kKeep ∧
        (children d).getD s (-1) ≠ -1 := by
  have hrepl : ∀ d, d < depth_adp →
      trimFlags children nerr derr td tn has_dis depth_adp d =
        List.replicate (children d).length TrimType.kKeep := by
    intro d hd
    cases d with
    | zero => rfl
    | succ d => simp only [trimFlags]; rw [if_pos hd]
  intro d
  induction d with
  | zero =>
    intro h1 h2
    obtain ⟨i, hi, hint⟩ : ∃ i < (children 0).length, (children 0).getD i (-1) ≠ -1 := by
      have : depth_adp - 1 = 0 := by omega
      rw [this] at hbase
      exact hbase
    refine ⟨i, hi, ?_, hint⟩
    rw [hrepl 0 (by omega)]
    exact getD_replicate _ _ _
  | succ d ih =>
    intro h1 h2
    by_cases hlow : d + 1 < depth_adp
    · obtain ⟨i, hi, hint⟩ : ∃ i < (children (d + 1)).length,
          (children (d + 1)).getD i (-1) ≠ -1 := by
        have : depth_adp - 1 = d + 1 := by omega
        rw [this] at hbase
        exact hbase
      refine ⟨i, hi, ?_, hint⟩
      rw [hrepl (d + 1) hlow]
      exact getD_replicate _ _ _
    · have hstep : trimFlags children nerr derr td tn has_dis depth_adp (d + 1) =
          trimFlagsLayer (children d) (children (d + 1))
            (trimFlags children nerr derr td tn has_dis depth_adp d)
            (nerr (d + 1)) (derr (d + 1)) td tn has_dis := by
        simp only [trimFlags]
        rw [if_neg hlow]
      obtain ⟨s, hs, hflag, hint⟩ := ih (by omega) (by omega)
      rw [hstep]
      exact trimFlagsLayer_good (children d) (children (d + 1)) _ _ _ td tn has_dis
        (hnonneg d (by omega)) (hinj d (by omega)) (hblock d (by omega))
        (hchild d (by omega)) (hnerr (d + 1) (by omega))
        ⟨s, hs, hflag, hint⟩

/-- Claim C1: for every layer `d` with `adaptive_layer ≤ d ≤ depth`, the
children array rewritten by `trim_octree` still yields
`nnum_nempty[d] ≥ 1` after `calc_node_num` — when a whole layer would be
collapsed, the rescue restores `kKeep` on an internal node (the one of
largest `normal_err` among children of still-`kKeep` parents). -/
theorem C1_nonempty_layers (children : ℕ → List ℤ) (nerr derr : ℕ → List ℚ)
    (td tn : ℚ) (has_dis : Bool) (depth_adp depth : ℕ)
    (hadp1 : 1 ≤ depth_adp)
    (hbase : ∃ i < (children (depth_adp - 1)).length,
      (children (depth_adp - 1)).getD i (-1) ≠ -1)
    (hnonneg : ∀ d < depth, ∀ p < (children d).length,
      (children d).getD p (-1) = -1 ∨ 0 ≤ (children d).getD p (-1))
    (hinj : ∀ d < depth, ∀ p < (children d).length, ∀ q < (children d).length,
      (children d).getD p (-1) ≠ -1 →
      (children d).getD p (-1) = (children d).getD q (-1) → p = q)
    (hblock : ∀ d < depth, ∀ p < (children d).length, (children d).getD p (-1) ≠ -1 →
      8 * ((children d).getD p (-1)).toNat + 7 < (children (d + 1)).length)
    (hchild : ∀ d < depth, ∀ p < (children d).length, (children d).getD p (-1) ≠ -1 →
      ∃ j < 8, (children (d + 1)).getD
        (8 * ((children d).getD p (-1)).toNat + j) (-1) ≠ -1)
    (hnerr : ∀ d < depth + 1, ∀ x ∈ nerr d, 0 ≤ x) :
    ∀ d, depth_adp ≤ d → d ≤ depth →
      1 ≤ calcNempty
        (trim_octree_children children nerr derr td tn has_dis depth_adp depth d) := by
  intro d h1 h2
  have hg := trimFlags_good children nerr derr td tn has_dis depth_adp depth hadp1
    hbase hnonneg hinj hblock hchild hnerr d (by omega) h2
  obtain ⟨s, hs, hflag, hint⟩ := hg
  rw [trim_octree_children, if_pos ⟨h1, h2⟩]
  exact calcNempty_pos _ (trimChildren_mem _ _)
    (trimChildren_exists _ _ ⟨s, hs, hflag, hint⟩)

/-- Closed witness for Claim C1: `depth = 1`, `adaptive_layer = 1`, one
internal root whose block at layer 1 has slot 0 occupied; thresholds `1`
drop everything, so only the rescue keeps the layer non-empty. -/
theorem C1_nonempty_layers_witness :
    1 ≤ calcNempty
      (trim_octree_children
        (fun d => ([[(0 : ℤ)], [3, -1, -1, -1, -1, -1, -1, -1]] :
          List (List ℤ)).getD d [])
        (fun d => ([[(0 : ℚ)], [0, 0, 0, 0, 0, 0, 0, 0]] : List (List ℚ)).getD d [])
        (fun _ => []) 1 1 false 1 1 1) :=
  C1_nonempty_layers
    (fun d => ([[(0 : ℤ)], [3, -1, -1, -1, -1, -1, -1, -1]] : List (List ℤ)).getD d [])
    (fun d => ([[(0 : ℚ)], [0, 0, 0, 0, 0, 0, 0, 0]] : List (List ℚ)).getD d [])
    (fun _ => []) 1 1 false 1 1
    (by decide) (by decide) (by decide) (by decide) (by decide) (by decide) (by decide)
    1 (by decide) (by decide)

/-! ### The bottom-up build: run structure of `unique_key` over parent keys -/

theorem foldl_establish {β : Type} (f : β → ℕ → β) (P Q : β → Prop) (b : β) (i N : ℕ)
    (hQ0 : Q b) (hQ : ∀ x a, a < N → Q x → Q (f x a))
    (hpres : ∀ x a, a < N → P x → P (f x a)) (hstep : ∀ x, Q x → P (f x i)) :
    ∀ n, n ≤ N → i < n → P ((List.range n).foldl f b) := by
  intro n
  induction n with
  | zero => intro _ h; omega
  | succ n ih =>
    intro hn hin
    rw [List.range_succ, List.foldl_append, List.foldl_cons, List.foldl_nil]
    have hQn : Q ((List.range n).foldl f b) := by
      refine foldl_inv _ Q _ _ hQ0 ?_
      intro x a ha hx
      exact hQ x a (by have := List.mem_range.mp ha; omega) hx
    by_cases hcase : i = n
    · subst hcase
      exact hstep _ hQn
    · exact hpres _ _ (by omega) (ih (by omega) (by omega))

theorem getD_range_map {α : Type} (g : ℕ → α) (m s : ℕ) (d : α) (h : s < m) :
    (((List.range m).map g).getD s d) = g s := by
  rw [List.getD_eq_getElem?_getD, List.getElem?_map g, List.getElem?_range h]
  rfl

theorem getD_of_lt {α : Type} (l : List α) (i : ℕ) (d : α) (h : i < l.length) :
    l.getD i d = l[i] :=
  List.getD_eq_getElem _ _ h

theorem chain_lt_getD (l : List ℕ) (hl : List.Chain' (· < ·) l) :
    ∀ a b : ℕ, a < b → b < l.length → l.getD a 0 < l.getD b 0 := by
  intro a b hab hb
  have hp := List.chain'_iff_pairwise.mp hl
  rw [getD_of_lt _ _ _ (by omega), getD_of_lt _ _ _ hb]
  exact List.pairwise_iff_getElem.mp hp a b (by omega) hb hab

theorem setFold_length (f : ℕ → ℕ) (n : ℕ) (init : List ℤ) :
    ((List.range n).foldl (fun ch j => ch.set (f j) (j : ℤ)) init).length =
      init.length := by
  refine foldl_inv _ (fun x : List ℤ => x.length = init.length) _ _ rfl ?_
  intro x a _ hx
  rw [List.length_set, hx]

theorem setFold_getD_none (f : ℕ → ℕ) (n : ℕ) (init : List ℤ) (s : ℕ)
    (h : ∀ a < n, f a ≠ s) :
    ((List.range n).foldl (fun ch j => ch.set (f j) (j : ℤ)) init).getD s (-1) =
      init.getD s (-1) := by
  refine foldl_inv _ (fun x : List ℤ => x.getD s (-1) = init.getD s (-1)) _ _ rfl ?_
  intro x a ha hx
  rw [getD_set_ne _ _ _ _ _ (h a (List.mem_range.mp ha)), hx]

theorem setFold_getD_eq (f : ℕ → ℕ) (n : ℕ) (init : List ℤ)
    (hinj : ∀ a b, a < n → b < n → f a = f b → a = b)
    (i : ℕ) (hi : i < n) (hlen : f i < init.length) :
    ((List.range n).foldl (fun ch j => ch.set (f j) (j : ℤ)) init).getD (f i) (-1) =
      (i : ℤ) := by
  have := foldl_establish (fun ch j => ch.set (f j) (j : ℤ))
    (fun x : List ℤ => x.getD (f i) (-1) = (i : ℤ) ∧ x.length = init.length)
    (fun x : List ℤ => x.length = init.length) init i n
    rfl (fun x a _ hx => by
      show (x.set (f a) (a : ℤ)).length = init.length
      rw [List.length_set]; exact hx)
    ?_ ?_ n (le_refl n) hi
  · exact this.1
  · intro x a ha hx
    show (x.set (f a) (a : ℤ)).getD (f i) (-1) = (i : ℤ) ∧
      (x.set (f a) (a : ℤ)).length = init.length
    constructor
    · by_cases hfa : f a = f i
      · have hai : a = i := hinj a i ha hi hfa
        rw [hfa, hai, getD_set_self _ _ _ _ (by rw [hx.2]; exact hlen)]
      · rw [getD_set_ne _ _ _ _ _ hfa]
        exact hx.1
    · rw [List.length_set]
      exact hx.2
  · intro x hx
    show (x.set (f i) (i : ℤ)).getD (f i) (-1) = (i : ℤ) ∧
      (x.set (f i) (i : ℤ)).length = init.length
    refine ⟨getD_set_self _ _ _ _ (by rw [hx]; exact hlen), ?_⟩
    rw [List.length_set]
    exact hx

/-- The value at position `i` of a nonempty nondecreasing list equals the
run head selected by counting the `unique_key` break positions at or
before `i`. -/
theorem unique_key_run_val (l0 : ℕ) (ls : List ℕ)
    (hmono : List.Chain' (· ≤ ·) (l0 :: ls)) :
    ∀ i < (l0 :: ls).length,
      (unique_key (l0 :: ls)).1.getD
        ((uniqRuns 1 l0 ls).2.countP (fun b => decide (b ≤ i))) 0 =
      (l0 :: ls).getD i 0 := by
  intro i hi
  rw [unique_key_cons]
  cases i with
  | zero =>
    rw [List.countP_eq_zero.mpr (by
      intro b hb
      have := uniqRuns_bs_mem 1 l0 ls b hb
      simp only [decide_eq_true_eq]
      omega)]
    rfl
  | succ i =>
    have hi' : i < ls.length := by simpa using hi
    have := uniqRuns_run_val 1 l0 ls hmono i hi'
    rw [show (1 : ℕ) + i = i + 1 from by omega] at this
    exact this

/-- The count of break positions used by `addrOf` equals the count over
the `uniqRuns` breaks alone whenever `i` is inside the vector. -/
theorem upPidx_count (l0 : ℕ) (ls : List ℕ) (i : ℕ) (hi : i < (l0 :: ls).length) :
    ((unique_key (l0 :: ls)).2.drop 1).countP (fun b => decide (b ≤ i)) =
      (uniqRuns 1 l0 ls).2.countP (fun b => decide (b ≤ i)) := by
  rw [unique_key_cons, List.cons_append, List.drop_succ_cons, List.drop_zero,
    List.countP_append]
  have : ([(l0 :: ls).length].countP (fun b => decide (b ≤ i))) = 0 := by
    simp only [List.countP_cons, List.countP_nil, decide_eq_true_eq]
    rw [if_neg (by omega)]
  omega

theorem unique_key_length_cons (l0 : ℕ) (ls : List ℕ) :
    (unique_key (l0 :: ls)).1.length = (uniqRuns 1 l0 ls).2.length + 1 := by
  rw [unique_key_cons]
  simp [uniqRuns_len 1 l0 ls]

/-! ### Per-layer facts about `layerKeys` and `layerChildren` -/

/-- The slot written for node `i` of the current layer
(`(node_keys[i] & 7) | addr[i]`). -/
def slotOf (nk : List ℕ) (i : ℕ) : ℕ :=
  nk.getD i 0 % 8 + addrOf nk i

theorem upKeys_chain (nk : List ℕ) (h : List.Chain' (· < ·) nk) :
    List.Chain' (· < ·) (upKeys nk) := by
  cases nk with
  | nil =>
    rw [show upKeys [] = [0] from rfl]
    exact List.chain'_singleton _
  | cons k0 ks =>
    rw [upKeys, List.map_cons, unique_key_cons]
    have hmono : List.Chain' (· ≤ ·) ((k0 / 8) :: ks.map (· / 8)) := by
      have := List.chain'_map_of_chain' (· / 8)
        (fun a b hab => Nat.div_le_div_right (le_of_lt hab)) h
      simpa using this
    exact uniqRuns_us_chain 1 (k0 / 8) (ks.map (· / 8)) hmono

theorem upKeys_ne_nil (nk : List ℕ) (h : nk ≠ []) : upKeys nk ≠ [] := by
  cases nk with
  | nil => exact absurd rfl h
  | cons k0 ks =>
    rw [upKeys, List.map_cons, unique_key_cons]
    exact List.cons_ne_nil _ _

theorem upKeys_mem (nk : List ℕ) (u : ℕ) (hu : u ∈ upKeys nk) (h : nk ≠ []) :
    ∃ k ∈ nk, u = k / 8 := by
  cases nk with
  | nil => exact absurd rfl h
  | cons k0 ks =>
    rw [upKeys, List.map_cons, unique_key_cons] at hu
    rcases List.mem_cons.mp hu with hu | hu
    · exact ⟨k0, List.mem_cons_self _ _, hu⟩
    · have := uniqRuns_us_sub 1 (k0 / 8) (ks.map (· / 8)) u hu
      obtain ⟨k, hk, hku⟩ := List.mem_map.mp this
      exact ⟨k, List.mem_cons_of_mem _ hk, hku.symm⟩

/-- The run rank of node `i`: `addrOf` divided by 8. -/
theorem addrOf_cons (k0 : ℕ) (ks : List ℕ) (i : ℕ) (hi : i < (k0 :: ks).length) :
    addrOf (k0 :: ks) i =
      8 * (uniqRuns 1 (k0 / 8) (ks.map (· / 8))).2.countP (fun b => decide (b ≤ i)) := by
  rw [addrOf, upPidx, List.map_cons]
  rw [upPidx_count (k0 / 8) (ks.map (· / 8)) i (by simpa using hi)]

/-- The parent key selected for node `i` is `node_keys[i] >> 3`. -/
theorem upKeys_rank_val (nk : List ℕ) (hsort : List.Chain' (· < ·) nk)
    (i : ℕ) (hi : i < nk.length) :
    (upKeys nk).getD (addrOf nk i / 8) 0 = nk.getD i 0 / 8 := by
  cases nk with
  | nil => simp at hi
  | cons k0 ks =>
    have hmono : List.Chain' (· ≤ ·) ((k0 / 8) :: ks.map (· / 8)) := by
      have := List.chain'_map_of_chain' (· / 8)
        (fun a b hab => Nat.div_le_div_right (le_of_lt hab)) hsort
      simpa using this
    rw [addrOf_cons _ _ _ hi, Nat.mul_div_cancel_left _ (by omega)]
    rw [upKeys, List.map_cons]
    have := unique_key_run_val (k0 / 8) (ks.map (· / 8)) hmono i (by simpa using hi)
    rw [this]
    cases i with
    | zero => rfl
    | succ i =>
      have hi' : i < ks.length := by simpa using hi
      simp only [List.getD_cons_succ]
      rw [List.getD_eq_getElem?_getD, List.getElem?_map (· / 8),
        List.getD_eq_getElem?_getD, List.getElem?_eq_getElem hi']
      rfl

theorem addrOf_lt (nk : List ℕ) (i : ℕ) (hi : i < nk.length) :
    addrOf nk i / 8 < (upKeys nk).length := by
  cases nk with
  | nil => simp at hi
  | cons k0 ks =>
    rw [addrOf_cons _ _ _ hi, Nat.mul_div_cancel_left _ (by omega)]
    have h1 := List.countP_le_length (p := fun b => decide (b ≤ i))
      (l := (uniqRuns 1 (k0 / 8) (ks.map (· / 8))).2)
    have h2 := unique_key_length_cons (k0 / 8) (ks.map (· / 8))
    rw [upKeys, List.map_cons]
    omega

theorem addrOf_mono (nk : List ℕ) (i i' : ℕ) (hii : i ≤ i') (_hi' : i' < nk.length) :
    addrOf nk i ≤ addrOf nk i' := by
  rw [addrOf, addrOf]
  have := List.countP_mono_left (l := ((upPidx nk).drop 1))
    (p := fun b => decide (b ≤ i)) (q := fun b => decide (b ≤ i'))
    (fun x _ hx => by simp only [decide_eq_true_eq] at hx ⊢; omega)
  omega

theorem addrOf_mod8 (nk : List ℕ) (i : ℕ) : addrOf nk i % 8 = 0 := by
  rw [addrOf]
  omega

theorem slotOf_lt (nk : List ℕ) (i : ℕ) (hi : i < nk.length) :
    slotOf nk i < 8 * (upKeys nk).length := by
  have h1 := addrOf_lt nk i hi
  have h2 := addrOf_mod8 nk i
  have h3 : nk.getD i 0 % 8 < 8 := by omega
  rw [slotOf]
  omega

theorem slotOf_div8 (nk : List ℕ) (i : ℕ) :
    slotOf nk i / 8 = addrOf nk i / 8 ∧ slotOf nk i % 8 = nk.getD i 0 % 8 := by
  have h2 := addrOf_mod8 nk i
  have h3 : nk.getD i 0 % 8 < 8 := by omega
  rw [slotOf]
  omega

theorem slotOf_inj (nk : List ℕ) (hsort : List.Chain' (· < ·) nk) :
    ∀ i i', i < nk.length → i' < nk.length → slotOf nk i = slotOf nk i' → i = i' := by
  have key : ∀ i i', i < i' → i' < nk.length → slotOf nk i = slotOf nk i' → False := by
    intro i i' hii hi' heq
    have hv : nk.getD i 0 < nk.getD i' 0 := chain_lt_getD nk hsort i i' hii hi'
    have d1 := slotOf_div8 nk i
    have d2 := slotOf_div8 nk i'
    have r1 := upKeys_rank_val nk hsort i (by omega)
    have r2 := upKeys_rank_val nk hsort i' hi'
    have hdiv : nk.getD i 0 / 8 = nk.getD i' 0 / 8 := by
      rw [← r1, ← r2]
      rw [← d1.1, ← d2.1, heq]
    omega
  intro i i' hi hi' heq
  rcases Nat.lt_trichotomy i i' with h | h | h
  · exact absurd heq (fun he => key i i' h hi' he)
  · exact h
  · exact absurd heq (fun he => key i' i h hi he.symm)

theorem layerKeys_getD (nk : List ℕ) (s : ℕ) (hs : s < 8 * (upKeys nk).length) :
    (layerKeys nk).getD s 0 = 8 * (upKeys nk).getD (s / 8) 0 + s % 8 := by
  rw [layerKeys]
  exact getD_range_map _ _ _ _ hs

theorem layerKeys_length (nk : List ℕ) :
    (layerKeys nk).length = 8 * (upKeys nk).length := by
  rw [layerKeys]
  simp

theorem layerKeys_slot (nk : List ℕ) (hsort : List.Chain' (· < ·) nk)
    (i : ℕ) (hi : i < nk.length) :
    (layerKeys nk).getD (slotOf nk i) 0 = nk.getD i 0 := by
  rw [layerKeys_getD nk _ (slotOf_lt nk i hi)]
  have d := slotOf_div8 nk i
  rw [d.1, d.2, upKeys_rank_val nk hsort i hi]
  omega

theorem layerChildren_length (nk : List ℕ) :
    (layerChildren nk).length = 8 * (upKeys nk).length := by
  simp only [layerChildren]
  have := setFold_length (fun j => nk.getD j 0 % 8 + addrOf nk j) nk.length
    (List.replicate (8 * (upKeys nk).length) (-1))
  simpa using this

theorem layerChildren_getD_slot (nk : List ℕ) (hsort : List.Chain' (· < ·) nk)
    (i : ℕ) (hi : i < nk.length) :
    (layerChildren nk).getD (slotOf nk i) (-1) = (i : ℤ) := by
  simp only [layerChildren]
  have := setFold_getD_eq (fun j => nk.getD j 0 % 8 + addrOf nk j) nk.length
    (List.replicate (8 * (upKeys nk).length) (-1))
    (fun a b ha hb hab => slotOf_inj nk hsort a b ha hb hab)
    i hi (by rw [List.length_replicate]; exact slotOf_lt nk i hi)
  simpa [slotOf] using this

theorem layerChildren_getD_inv (nk : List ℕ) (hsort : List.Chain' (· < ·) nk)
    (s : ℕ) (t : ℕ) (h : (layerChildren nk).getD s (-1) = (t : ℤ)) :
    t < nk.length ∧ s = slotOf nk t := by
  by_cases hex : ∃ a, a < nk.length ∧ slotOf nk a = s
  · obtain ⟨a, ha, has⟩ := hex
    have := layerChildren_getD_slot nk hsort a ha
    rw [has] at this
    rw [this] at h
    have hta : t = a := by omega
    rw [hta, ← has]
    exact ⟨ha, rfl⟩
  · push_neg at hex
    exfalso
    have hnone : (layerChildren nk).getD s (-1) = -1 := by
      simp only [layerChildren]
      have := setFold_getD_none (fun j => nk.getD j 0 % 8 + addrOf nk j) nk.length
        (List.replicate (8 * (upKeys nk).length) (-1)) s
        (fun a ha => hex a ha)
      rw [show ((List.replicate (8 * (upKeys nk).length) (-1 : ℤ)).getD s (-1)) = -1
        from getD_replicate _ _ _] at this
      simpa using this
    rw [hnone] at h
    omega

theorem chain_getD_inj (l : List ℕ) (h : List.Chain' (· < ·) l) :
    ∀ a b, a < l.length → b < l.length → l.getD a 0 = l.getD b 0 → a = b := by
  intro a b ha hb hab
  rcases Nat.lt_trichotomy a b with hc | hc | hc
  · have := chain_lt_getD l h a b hc hb; omega
  · exact hc
  · have := chain_lt_getD l h b a hc ha; omega

theorem getD_mem (l : List ℕ) (i : ℕ) (h : i < l.length) : l.getD i 0 ∈ l := by
  rw [getD_of_lt _ _ _ h]
  exact List.getElem_mem h

/-- Inverse characterization of a fold of writes `ch[f j] := j` over an
all-`-1` array. -/
theorem setFold_getD_inv (f : ℕ → ℕ) (n : ℕ) (init : List ℤ) (s : ℕ) (t : ℕ)
    (hinj : ∀ a b, a < n → b < n → f a = f b → a = b)
    (hinit : ∀ s', init.getD s' (-1) = -1)
    (hflen : ∀ a < n, f a < init.length)
    (h : ((List.range n).foldl (fun ch j => ch.set (f j) (j : ℤ)) init).getD s (-1) =
      (t : ℤ)) :
    t < n ∧ s = f t := by
  by_cases hex : ∃ a, a < n ∧ f a = s
  · obtain ⟨a, ha, has⟩ := hex
    have := setFold_getD_eq f n init hinj a ha (hflen a ha)
    rw [has] at this
    rw [this] at h
    have hta : t = a := by omega
    rw [hta, ← has]
    exact ⟨ha, rfl⟩
  · push_neg at hex
    exfalso
    have := setFold_getD_none f n init s (fun a ha => hex a ha)
    rw [hinit s] at this
    rw [this] at h
    omega

theorem iterUp_succ_left (nk : List ℕ) : ∀ j, iterUp (upKeys nk) j = iterUp nk (j + 1) := by
  intro j
  induction j with
  | zero => rfl
  | succ j ih =>
    show upKeys (iterUp (upKeys nk) j) = upKeys (iterUp nk (j + 1))
    rw [ih]

theorem iterUp_chain (nk : List ℕ) (h : List.Chain' (· < ·) nk) :
    ∀ j, List.Chain' (· < ·) (iterUp nk j) := by
  intro j
  induction j with
  | zero => exact h
  | succ j ih => exact upKeys_chain _ ih

theorem iterUp_ne_nil (nk : List ℕ) (h : nk ≠ []) : ∀ j, iterUp nk j ≠ [] := by
  intro j
  induction j with
  | zero => exact h
  | succ j ih => exact upKeys_ne_nil _ ih

theorem iterUp_bound (nk : List ℕ) (c : ℕ) (hb : ∀ k ∈ nk, k < 8 ^ c) (hne : nk ≠ []) :
    ∀ j, j ≤ c → ∀ k ∈ iterUp nk j, k < 8 ^ (c - j) := by
  intro j
  induction j with
  | zero => intro _ k hk; exact hb k hk
  | succ j ih =>
    intro hj u hu
    obtain ⟨k, hk, hku⟩ := upKeys_mem _ u hu (iterUp_ne_nil nk hne j)
    have hkb := ih (by omega) k hk
    rw [hku]
    have hexp : c - j = (c - (j + 1)) + 1 := by omega
    rw [hexp, pow_succ] at hkb
    rw [Nat.div_lt_iff_lt_mul (by omega)]
    exact hkb

theorem buildLoop_snd (full : ℕ) : ∀ (curr : ℕ) (nk : List ℕ),
    (buildLoop full curr nk).2 = iterUp nk (curr - full) := by
  intro curr
  induction curr with
  | zero =>
    intro nk
    rw [show (0 : ℕ) - full = 0 from by omega]
    rfl
  | succ curr ih =>
    intro nk
    show (if curr + 1 ≤ full then (([] : List (List ℕ × List ℤ)), nk)
      else ((layerKeys nk, layerChildren nk) :: (buildLoop full curr (upKeys nk)).1,
        (buildLoop full curr (upKeys nk)).2)).2 = iterUp nk (curr + 1 - full)
    by_cases hc : curr + 1 ≤ full
    · rw [if_pos hc, show curr + 1 - full = 0 from by omega]
      rfl
    · rw [if_neg hc]
      show (buildLoop full curr (upKeys nk)).2 = _
      rw [ih (upKeys nk), iterUp_succ_left nk (curr - full),
        show curr - full + 1 = curr + 1 - full from by omega]

theorem buildLoop_fst_getD (full : ℕ) : ∀ (curr : ℕ) (nk : List ℕ) (j : ℕ),
    j < curr - full →
    (buildLoop full curr nk).1.getD j ([], []) =
      (layerKeys (iterUp nk j), layerChildren (iterUp nk j)) := by
  intro curr
  induction curr with
  | zero => intro nk j hj; omega
  | succ curr ih =>
    intro nk j hj
    show (if curr + 1 ≤ full then (([] : List (List ℕ × List ℤ)), nk)
      else ((layerKeys nk, layerChildren nk) :: (buildLoop full curr (upKeys nk)).1,
        (buildLoop full curr (upKeys nk)).2)).1.getD j ([], []) = _
    rw [if_neg (by omega)]
    cases j with
    | zero => rfl
    | succ j =>
      show (buildLoop full curr (upKeys nk)).1.getD j ([], []) = _
      rw [ih (upKeys nk) j (by omega), iterUp_succ_left]

theorem BS_keys_low (depth full : ℕ) (nk : List ℕ) (d : ℕ) (h : d ≤ full) :
    (build_structure depth full nk).1 d = fullLayerKeys d := by
  show (if d ≤ full then fullLayerKeys d else _) = fullLayerKeys d
  rw [if_pos h]

theorem BS_keys_high (depth full : ℕ) (nk : List ℕ) (d : ℕ) (h1 : full < d)
    (h2 : d ≤ depth) :
    (build_structure depth full nk).1 d = layerKeys (iterUp nk (depth - d)) := by
  show (if d ≤ full then fullLayerKeys d
    else if d ≤ depth then ((buildLoop full depth nk).1.getD (depth - d) ([], [])).1
    else []) = _
  rw [if_neg (by omega), if_pos h2, buildLoop_fst_getD full depth nk (depth - d) (by omega)]

theorem BS_children_high (depth full : ℕ) (nk : List ℕ) (d : ℕ) (h1 : full < d)
    (h2 : d ≤ depth) :
    (build_structure depth full nk).2 d = layerChildren (iterUp nk (depth - d)) := by
  show (if d < full then fullLayerChildren d full
    else if d = full then _
    else if d ≤ depth then ((buildLoop full depth nk).1.getD (depth - d) ([], [])).2
    else []) = _
  rw [if_neg (by omega), if_neg (by omega), if_pos h2,
    buildLoop_fst_getD full depth nk (depth - d) (by omega)]

theorem BS_children_full (depth full : ℕ) (nk : List ℕ) (h : full < depth) :
    (build_structure depth full nk).2 full =
      (List.range (iterUp nk (depth - full)).length).foldl
        (fun ch i => ch.set ((iterUp nk (depth - full)).getD i 0) (i : ℤ))
        (List.replicate (8 ^ full) (-1)) := by
  show (if full < full then fullLayerChildren full full
    else if full = full then
      (if full < depth then
        (List.range (buildLoop full depth nk).2.length).foldl
          (fun ch i => ch.set ((buildLoop full depth nk).2.getD i 0) (i : ℤ))
          (fullLayerChildren full full)
      else fullLayerChildren full full)
    else _) = _
  rw [if_neg (by omega), if_pos rfl, if_pos h, buildLoop_snd full depth nk]
  rw [show fullLayerChildren full full = List.replicate (8 ^ full) (-1) from by
    rw [fullLayerChildren, if_neg (by omega)]]

/-- Claim C2: above the full layer, every built layer consists of whole
8-blocks (`nnum[d] % 8 = 0`); a parent at layer `d-1` whose child pointer
is block `t` has `keys[d][8t + k] = (keys[d-1][p] << 3) | k` for
`k ∈ [0,8)`; and every 8-block of layer `d` is pointed at by some parent
of layer `d-1`. -/
theorem C2_eight_block_structure (depth full : ℕ) (nk : List ℕ)
    (hsort : List.Chain' (· < ·) nk) (hne : nk ≠ [])
    (hbound : ∀ k ∈ nk, k < 8 ^ depth) :
    ∀ d, full < d → d ≤ depth →
      ((build_structure depth full nk).1 d).length % 8 = 0 ∧
      (∀ p t : ℕ, ((build_structure depth full nk).2 (d - 1)).getD p (-1) = (t : ℤ) →
        ∀ k < 8, ((build_structure depth full nk).1 d).getD (8 * t + k) 0 =
          8 * ((build_structure depth full nk).1 (d - 1)).getD p 0 + k) ∧
      (∀ t : ℕ, 8 * t < ((build_structure depth full nk).1 d).length →
        ∃ p < ((build_structure depth full nk).1 (d - 1)).length,
          ((build_structure depth full nk).2 (d - 1)).getD p (-1) = (t : ℤ)) := by
  intro d hd1 hd2
  have hm_sort : List.Chain' (· < ·) (iterUp nk (depth - d)) := iterUp_chain nk hsort _
  have hkeys_d := BS_keys_high depth full nk d hd1 hd2
  have hup : upKeys (iterUp nk (depth - d)) = iterUp nk (depth - (d - 1)) := by
    rw [show depth - (d - 1) = (depth - d) + 1 from by omega]
    rfl
  refine ⟨?_, ?_, ?_⟩
  · rw [hkeys_d, layerKeys_length]
    omega
  · intro p t hpt k hk
    by_cases hcase : full < d - 1
    · have hm'_sort : List.Chain' (· < ·) (iterUp nk (depth - (d - 1))) :=
        iterUp_chain nk hsort _
      rw [BS_children_high depth full nk (d - 1) hcase (by omega)] at hpt
      obtain ⟨htl, hps⟩ := layerChildren_getD_inv _ hm'_sort p t hpt
      rw [BS_keys_high depth full nk (d - 1) hcase (by omega), hps,
        layerKeys_slot _ hm'_sort t htl]
      rw [hkeys_d, layerKeys_getD _ _ (by rw [hup]; omega)]
      rw [show (8 * t + k) / 8 = t from by omega, show (8 * t + k) % 8 = k from by omega]
      rw [hup]
    · have hdf : d - 1 = full := by omega
      have hfull_lt : full < depth := by omega
      have hfin_sort : List.Chain' (· < ·) (iterUp nk (depth - full)) :=
        iterUp_chain nk hsort _
      have hfin_bound : ∀ u ∈ iterUp nk (depth - full), u < 8 ^ full := by
        intro u hu
        have := iterUp_bound nk depth hbound hne (depth - full) (by omega) u hu
        rw [show depth - (depth - full) = full from by omega] at this
        exact this
      rw [hdf, BS_children_full depth full nk hfull_lt] at hpt
      obtain ⟨htl, hps⟩ := setFold_getD_inv _ _ _ p t
        (fun a b ha hb hab => chain_getD_inj _ hfin_sort a b ha hb hab)
        (fun s' => getD_replicate _ _ _)
        (fun a ha => by
          rw [List.length_replicate]
          exact hfin_bound _ (getD_mem _ a ha)) hpt
      rw [hdf, BS_keys_low depth full nk full (le_refl full), hps]
      rw [show (fullLayerKeys full).getD ((iterUp nk (depth - full)).getD t 0) 0 =
          (iterUp nk (depth - full)).getD t 0 from
        getD_range _ _ (hfin_bound _ (getD_mem _ t htl))]
      rw [hkeys_d, layerKeys_getD _ _ (by
        rw [hup, show depth - (d - 1) = depth - full from by omega]
        omega)]
      rw [show (8 * t + k) / 8 = t from by omega, show (8 * t + k) % 8 = k from by omega]
      rw [hup, show depth - (d - 1) = depth - full from by omega]
  · intro t ht
    rw [hkeys_d, layerKeys_length] at ht
    have htl : t < (iterUp nk (depth - (d - 1))).length := by rw [← hup]; omega
    by_cases hcase : full < d - 1
    · have hm'_sort : List.Chain' (· < ·) (iterUp nk (depth - (d - 1))) :=
        iterUp_chain nk hsort _
      refine ⟨slotOf (iterUp nk (depth - (d - 1))) t, ?_, ?_⟩
      · rw [BS_keys_high depth full nk (d - 1) hcase (by omega), layerKeys_length]
        exact slotOf_lt _ t htl
      · rw [BS_children_high depth full nk (d - 1) hcase (by omega)]
        exact layerChildren_getD_slot _ hm'_sort t htl
    · have hdf : d - 1 = full := by omega
      have hfull_lt : full < depth := by omega
      have hfe : depth - (d - 1) = depth - full := by omega
      have hfin_sort : List.Chain' (· < ·) (iterUp nk (depth - full)) :=
        iterUp_chain nk hsort _
      have hfin_bound : ∀ u ∈ iterUp nk (depth - full), u < 8 ^ full := by
        intro u hu
        have := iterUp_bound nk depth hbound hne (depth - full) (by omega) u hu
        rw [show depth - (depth - full) = full from by omega] at this
        exact this
      rw [hfe] at htl
      refine ⟨(iterUp nk (depth - full)).getD t 0, ?_, ?_⟩
      · rw [hdf, BS_keys_low depth full nk full (le_refl full)]
        rw [show (fullLayerKeys full).length = 8 ^ full from by
          rw [fullLayerKeys]; simp]
        exact hfin_bound _ (getD_mem _ t htl)
      · rw [hdf, BS_children_full depth full nk hfull_lt]
        exact setFold_getD_eq _ _ _
          (fun a b ha hb hab => chain_getD_inj _ hfin_sort a b ha hb hab)
          t htl (by
            rw [List.length_replicate]
            exact hfin_bound _ (getD_mem _ t htl))

/-- Closed witness for Claim C2 at `depth = 2`, `full_layer = 0`, occupied
key `5`. -/
theorem C2_eight_block_structure_witness :
    (List.Chain' (· < ·) ([5] : List ℕ) ∧ ([5] : List ℕ) ≠ [] ∧
      (∀ k ∈ ([5] : List ℕ), k < 8 ^ 2)) ∧
    (∀ d, 0 < d → d ≤ 2 →
      ((build_structure 2 0 [5]).1 d).length % 8 = 0 ∧
      (∀ p t : ℕ, ((build_structure 2 0 [5]).2 (d - 1)).getD p (-1) = (t : ℤ) →
        ∀ k < 8, ((build_structure 2 0 [5]).1 d).getD (8 * t + k) 0 =
          8 * ((build_structure 2 0 [5]).1 (d - 1)).getD p 0 + k) ∧
      (∀ t : ℕ, 8 * t < ((build_structure 2 0 [5]).1 d).length →
        ∃ p < ((build_structure 2 0 [5]).1 (d - 1)).length,
          ((build_structure 2 0 [5]).2 (d - 1)).getD p (-1) = (t : ℤ))) :=
  ⟨⟨List.chain'_singleton _, by decide, by decide⟩,
    C2_eight_block_structure 2 0 [5] (List.chain'_singleton _) (by decide) (by decide)⟩

/-- Claim C10: `unique_key` on an empty key vector resizes the key vector
to one value-initialized entry (`[0]`) and returns the boundary vector
`[0, 0]`, which is not strictly increasing. -/
theorem C10_unique_key_empty :
    unique_key ([] : List ℕ) = ([0], [0, 0]) ∧
    (unique_key ([] : List ℕ)).1.length = 1 ∧
    ¬ List.Chain' (· < ·) (unique_key ([] : List ℕ)).2 := by
  refine ⟨rfl, rfl, ?_⟩
  rw [show (unique_key ([] : List ℕ)).2 = [0, 0] from rfl]
  intro hc
  exact absurd (List.chain'_cons.mp hc).1 (lt_irrefl 0)

end OCNN
